import Mathlib

/-!
# Verification of the recipe-visualization core

Shallow embedding of the result-interpretation and layout engine of the
element-crafting visualizer: the recipe extractor, the bidirectional
classifier (explicit and implicit modes), the DFS trace builder and the
two layout functions, together with theorems settling the frozen claims.

JavaScript `Set` values are modelled as duplicate-free insertion-ordered
lists (`sadd`), plain objects used as string-keyed maps as ordered
association lists with overwriting update (`setConn`), and JS numbers as
rationals.  A possibly malformed payload node carries an optional
`element` field; the JS falsy test `!node.element` is modelled by `elVal`,
which also maps the empty string to `none`.
-/

/-- A flattened recipe row: `result = ingredients` (from the source's
`Recipe` type). -/
structure Recipe where
  result : String
  ingredients : List String
deriving DecidableEq, Repr

/-- Canonical recipe-tree node (the source's `RecipeNode` /
`ElementNode`: an element plus its ordered ingredient sub-trees). -/
inductive RecipeNode where
  | mk (element : String) (recipes : List RecipeNode)

/-- The element of a recipe-tree node. -/
def RecipeNode.element : RecipeNode → String
  | .mk e _ => e

/-- The ingredient sub-trees of a recipe-tree node. -/
def RecipeNode.recipes : RecipeNode → List RecipeNode
  | .mk _ rs => rs

/-- Raw payload node as received from the backend: the `element` field may
be missing (`none`).  Used by the classifier and the DFS trace builder,
which must tolerate malformed nodes. -/
inductive RNode where
  | mk (element : Option String) (recipes : List RNode)

/-- The optional element field of a raw node. -/
def RNode.element : RNode → Option String
  | .mk e _ => e

/-- The child list of a raw node. -/
def RNode.recipes : RNode → List RNode
  | .mk _ rs => rs

mutual

/-- Boolean structural equality of raw nodes. -/
def rnEq : RNode → RNode → Bool
  | RNode.mk e1 r1, RNode.mk e2 r2 => e1 == e2 && rnEqList r1 r2

/-- Boolean structural equality of raw node lists. -/
def rnEqList : List RNode → List RNode → Bool
  | [], [] => true
  | a :: as, b :: bs => rnEq a b && rnEqList as bs
  | _, _ => false

end

mutual

/-- `rnEq` decides propositional equality. -/
theorem rnEq_eq : ∀ a b : RNode, rnEq a b = true ↔ a = b
  | RNode.mk e1 r1, RNode.mk e2 r2 => by
    simp only [rnEq, Bool.and_eq_true, beq_iff_eq, RNode.mk.injEq]
    constructor
    · rintro ⟨rfl, h⟩; exact ⟨rfl, (rnEqList_eq r1 r2).mp h⟩
    · rintro ⟨rfl, rfl⟩; exact ⟨rfl, (rnEqList_eq r1 r1).mpr rfl⟩

/-- `rnEqList` decides propositional equality. -/
theorem rnEqList_eq : ∀ a b : List RNode, rnEqList a b = true ↔ a = b
  | [], [] => by simp [rnEqList]
  | [], _ :: _ => by simp [rnEqList]
  | _ :: _, [] => by simp [rnEqList]
  | a :: as, b :: bs => by
    simp only [rnEqList, Bool.and_eq_true, List.cons.injEq]
    constructor
    · rintro ⟨h1, h2⟩; exact ⟨(rnEq_eq a b).mp h1, (rnEqList_eq as bs).mp h2⟩
    · rintro ⟨rfl, rfl⟩; exact ⟨(rnEq_eq a a).mpr rfl, (rnEqList_eq as as).mpr rfl⟩

end

instance : DecidableEq RNode := fun a b =>
  decidable_of_iff (rnEq a b = true) (rnEq_eq a b)

/-- JS truthiness of the `element` field: `undefined`/`null` and the empty
string are all falsy, so both are mapped to `none`. -/
def elVal : Option String → Option String
  | none => none
  | some "" => none
  | some s => some s

/-- The element of a raw node under JS truthiness (`node.element` where
falsy values mean the node is malformed). -/
def elOf (n : RNode) : Option String :=
  elVal n.element

/-- `Set.add`: append the value if it is not already present (JS sets keep
insertion order and ignore re-insertions). -/
def sadd (s : List String) (x : String) : List String :=
  if x ∈ s then s else s ++ [x]

/-- Add every element of `l` to the set `s` in order. -/
def addAll (s : List String) (l : List String) : List String :=
  l.foldl sadd s

/-- JS object property assignment `m[k] = v` on a string-keyed map:
overwrite the value if the key exists (keeping key order), else append. -/
def setConn : List (String × List String) → String → List String →
    List (String × List String)
  | [], k, v => [(k, v)]
  | (k', v') :: rest, k, v =>
    if k' = k then (k, v) :: rest else (k', v') :: setConn rest k v

/-- JS object property lookup `m[k]` on a string-keyed map. -/
def connLookup : List (String × List String) → String → Option (List String)
  | [], _ => none
  | (k', v) :: rest, k => if k' = k then some v else connLookup rest k

mutual

/-- The source's `extractRecipes`: bottom-up depth-first traversal that
recurses into every ingredient sub-tree first, then appends the node's own
recipe row unless its element was already emitted; the visited set is
threaded through the whole traversal. Returns the emitted rows together
with the updated visited set. -/
def extractRecipes : RecipeNode → List String → List Recipe × List String
  | RecipeNode.mk el rs, v =>
    match rs with
    | [] => ([], v)
    | _ :: _ =>
      let p := extractList rs v
      if el ∈ p.2 then p
      else (p.1 ++ [⟨el, rs.map RecipeNode.element⟩], el :: p.2)

/-- Fold of `extractRecipes` over a child list, accumulating rows and the
visited set left to right. -/
def extractList : List RecipeNode → List String → List Recipe × List String
  | [], v => ([], v)
  | c :: cs, v =>
    let p1 := extractRecipes c v
    let p2 := extractList cs p1.2
    (p1.1 ++ p2.1, p2.2)

end

/-- The four base elements seeding the forward set in `processRecipeData`. -/
def baseElements : List String := ["Water", "Fire", "Earth", "Air"]

/-- The mutable classification state threaded through the implicit-mode
traversal (`newForwardElements`, `newBackwardElements`,
`newElementConnections` in the source). -/
structure CState where
  forward : List String
  backward : List String
  connections : List (String × List String)
deriving DecidableEq, Repr

/-- Valid ingredient elements of a child list: the source's
`recipes.filter(r => r && r.element).map(r => r.element)`. -/
def validIngredients (rs : List RNode) : List String :=
  rs.filterMap elOf

mutual

/-- The source's `findPathToTarget`: returns the accumulated path up to
and including the first depth-first match of `target`, or `[]` when no
path exists; malformed nodes are dead ends. -/
def findPathToTarget (target : String) : RNode → List String → List String
  | RNode.mk oe rs, cur =>
    match elVal oe with
    | none => []
    | some el =>
      if el = target then cur ++ [el]
      else
        match rs with
        | [] => []
        | _ :: _ => findPathList target rs (cur ++ [el])

/-- First-match scan of `findPathToTarget` over a child list (the
source's `for` loop returning the first non-empty path). -/
def findPathList (target : String) : List RNode → List String → List String
  | [], _ => []
  | c :: cs, cur =>
    let p := findPathToTarget target c cur
    if p = [] then findPathList target cs cur else p

end

/-- The unconditional base-element rule at the head of the source's
`processNode`: a base element is added to the forward set. -/
def addBaseForward (el : String) (s : CState) : CState :=
  if el ∈ baseElements then { s with forward := sadd s.forward el } else s

/-- The unconditional target rule at the head of the source's
`processNode`: the target element is added to the backward set. -/
def addTargetBackward (target el : String) (s : CState) : CState :=
  if el = target then { s with backward := sadd s.backward el } else s

/-- The leaf branch of the source's `processNode` (`else if` chain for a
node without recipes). -/
def classifyLeaf (target el : String) (s : CState) : CState :=
  if el = target then { s with backward := sadd s.backward el }
  else if el ∈ baseElements then { s with forward := sadd s.forward el }
  else s

/-- The connection-recording and classification step of the source's
`processNode` for a node with valid ingredients: store the connection
entry, then put the element and all its ingredients into backward when
the node is flagged (or is the target), otherwise into forward. -/
def recordAndClassify (target el : String) (flag : Bool)
    (ingredients : List String) (s : CState) : CState :=
  let s3 := { s with connections := setConn s.connections el ingredients }
  if flag || el = target then
    { s3 with backward := addAll (sadd s3.backward el) ingredients }
  else
    { s3 with forward := addAll (sadd s3.forward el) ingredients }

mutual

/-- The source's inner `processNode` of
`buildBidirectionalFromRecipeTree`: classifies one node (and recursively
its ingredient sub-trees) into the forward or backward set according to
the path flag, records its connection entry, and forces base elements
into `forward` and the target into `backward`. -/
def processNode (target : String) : RNode → Bool → CState → CState
  | RNode.mk oe rs, flag, s =>
    match elVal oe with
    | none => s
    | some el =>
      let s2 := addTargetBackward target el (addBaseForward el s)
      match rs with
      | [] => classifyLeaf target el s2
      | _ :: _ =>
        let ingredients := validIngredients rs
        if ingredients = [] then s2
        else processChildren target rs flag ingredients
          (recordAndClassify target el flag ingredients s2)

/-- The source's `recipes.forEach` recursion inside `processNode`: each
child is processed with the flag
`pathToTarget && ingredients.includes(child.element) && findPathToTarget(child) ≠ []`. -/
def processChildren (target : String) :
    List RNode → Bool → List String → CState → CState
  | [], _, _, s => s
  | c :: cs, flag, ingredients, s =>
    let childFlag := flag &&
      (match elOf c with
       | some e => decide (e ∈ ingredients)
       | none => false) &&
      decide (findPathToTarget target c [] ≠ [])
    processChildren target cs flag ingredients (processNode target c childFlag s)

end

/-- The source's `buildBidirectionalFromRecipeTree`: bails out on a
malformed root, otherwise processes the whole tree with the root flag
`findPathToTarget(node, target, []).length > 0`. -/
def buildBidirectionalFromRecipeTree (target : String) (n : RNode) (s : CState) :
    CState :=
  match elOf n with
  | none => s
  | some _ =>
    let isInPath := decide (findPathToTarget target n [] ≠ [])
    processNode target n isInPath s

/-- One explicit-mode visited map (`forwardVisited` / `backwardVisited`):
element keys, each optionally carrying the `Recipe` ingredient list used
to produce it. -/
abbrev VisitedMap := List (String × Option (List String))

/-- The source's explicit-mode loop over a visited map: every key is
added to the given set, and a present non-empty `Recipe` list overwrites
the connection entry for that key. -/
def processVisited (vis : VisitedMap) (s : List String)
    (conn : List (String × List String)) :
    List String × List (String × List String) :=
  vis.foldl
    (fun acc e =>
      let s' := sadd acc.1 e.1
      match e.2 with
      | some l => if l = [] then (s', acc.2) else (s', setConn acc.2 e.1 l)
      | none => (s', acc.2))
    (s, conn)

/-- The source's meeting-point computation: the explicit meeting points
are added first, then every forward element also present in the backward
set is added. -/
def computeMeeting (explicitMeeting fwd bwd : List String) : List String :=
  fwd.foldl (fun m e => if e ∈ bwd then sadd m e else m)
    (explicitMeeting.foldl sadd [])

/-- The resulting classification (`BidirectionalState` of the spec):
forward, backward and meeting sets plus the connection map. -/
structure BidirState where
  forward : List String
  backward : List String
  meeting : List String
  connections : List (String × List String)
deriving DecidableEq, Repr

/-- A classifier input: either an explicit bidirectional payload
(forward/backward visited maps plus an optional explicit meeting-point
list, `[]` when absent) or a plain recipe tree (implicit mode). -/
inductive ClassifierInput where
  | explicitMode (fwd bwd : VisitedMap) (meetingPoints : List String)
  | implicitMode (tree : RNode)

/-- The explicit meeting-point list carried by an input (`[]` for
implicit mode, matching `data.meetingPoints || []` in the source). -/
def explicitMeetingOf : ClassifierInput → List String
  | .explicitMode _ _ mp => mp
  | .implicitMode _ => []

/-- The source's `processRecipeData` on a well-formed payload: seeds the
forward set with the base elements and the backward set with the target,
dispatches on explicit versus implicit data, then computes the meeting
points. -/
def processRecipeData (target : String) : ClassifierInput → BidirState
  | .explicitMode fwd bwd mp =>
    let pf := processVisited fwd baseElements []
    let pb := processVisited bwd [target] pf.2
    ⟨pf.1, pb.1, computeMeeting mp pf.1 pb.1, pb.2⟩
  | .implicitMode t =>
    let s := buildBidirectionalFromRecipeTree target t ⟨baseElements, [target], []⟩
    ⟨s.forward, s.backward, computeMeeting [] s.forward s.backward, s.connections⟩

/-- A depth-stamped DFS visit event (the source's `DFSNode`); `id`
uniquely identifies the node instance (the source uses a timestamp plus a
random number, modelled here by a deterministic counter). -/
structure DFSNode where
  element : String
  depth : Nat
  parent : Option String
  id : Nat
deriving DecidableEq, Repr

/-- The `(element, depth, parent)` triple of a DFS node, the first
deduplication key. -/
def DFSNode.triple (n : DFSNode) : String × Nat × Option String :=
  (n.element, n.depth, n.parent)

/-- The `(element, depth)` pair of a DFS node, the second deduplication
key. -/
def DFSNode.pairKey (n : DFSNode) : String × Nat :=
  (n.element, n.depth)

/-- The node-list update performed by the source's `processDFSData` on an
incoming `(element, depth, parent)` event: an event matching an
already-emitted node's triple is suppressed, otherwise a new node is
appended. -/
def processDFSNodes (prev : List DFSNode) (e : String) (d : Nat)
    (p : Option String) (newId : Nat) : List DFSNode :=
  if prev.any fun n => n.element == e && n.depth == d && n.parent == p then prev
  else prev ++ [⟨e, d, p, newId⟩]

/-- State of the source's `processRecipeTree` conversion: the
`elementTracker` map from `(element, depth)` keys to the first node seen
for that key plus its merged parent set, the emitted `dfsNodes`, and the
id counter. -/
structure TraverseState where
  tracker : List ((String × Nat) × (DFSNode × List String))
  nodes : List DFSNode
  nextId : Nat
deriving DecidableEq, Repr

/-- Lookup in the element tracker (a JS `Map` keyed by
`element ++ "_" ++ depth`, modelled by the pair). -/
def lookupTracker :
    List ((String × Nat) × (DFSNode × List String)) → (String × Nat) →
    Option (DFSNode × List String)
  | [], _ => none
  | (k', v) :: rest, k => if k' = k then some v else lookupTracker rest k

/-- Overwriting update of the element tracker (JS `Map.set`). -/
def setTracker :
    List ((String × Nat) × (DFSNode × List String)) → (String × Nat) →
    (DFSNode × List String) →
    List ((String × Nat) × (DFSNode × List String))
  | [], k, v => [(k, v)]
  | (k', v') :: rest, k, v =>
    if k' = k then (k, v) :: rest else (k', v') :: setTracker rest k v

mutual

/-- The source's `traverseDFS` inside `processRecipeTree`: skips
malformed nodes, suppresses a node whose `(element, depth, parent)` key
is already in the per-branch `visited` set, merges a node whose
`(element, depth)` key is already tracked into the existing node's parent
set (emitting nothing and not recursing), and otherwise emits the node
and recurses into its children with a cloned visited set. -/
def traverseDFS : RNode → Nat → Option String →
    List (String × Nat × Option String) → TraverseState → TraverseState
  | RNode.mk oe rs, depth, parent, visited, st =>
    match elVal oe with
    | none => st
    | some el =>
      if (el, depth, parent) ∈ visited then st
      else
        let visited' := (el, depth, parent) :: visited
        let nodeData : DFSNode := ⟨el, depth, parent, st.nextId⟩
        match lookupTracker st.tracker (el, depth) with
        | some (n0, ps) =>
          { st with
            tracker := setTracker st.tracker (el, depth)
              (n0, match parent with | some q => sadd ps q | none => ps) }
        | none =>
          let st1 : TraverseState :=
            { tracker := st.tracker ++
                [((el, depth), (nodeData, match parent with | some q => [q] | none => []))],
              nodes := st.nodes ++ [nodeData],
              nextId := st.nextId + 1 }
          traverseChildren rs (depth + 1) el visited' st1

/-- The source's `node.recipes.forEach` recursion of `traverseDFS`: each
child receives the same (cloned) visited set. -/
def traverseChildren : List RNode → Nat → String →
    List (String × Nat × Option String) → TraverseState → TraverseState
  | [], _, _, _, st => st
  | c :: cs, d, pel, vis, st =>
    traverseChildren cs d pel vis (traverseDFS c d (some pel) vis st)

end

/-- The whole tree-to-trace conversion of `processRecipeTree`, starting
at the root with depth 0, no parent, and fresh state. -/
def buildTrace (t : RNode) : TraverseState :=
  traverseDFS t 0 none [] ⟨[], [], 0⟩

/-- A node augmented with screen coordinates (`LayoutPoint`); JS numbers
are modelled as rationals. -/
structure PositionedNode where
  element : String
  depth : Nat
  parent : Option String
  id : Nat
  x : ℚ
  y : ℚ
deriving DecidableEq, Repr

/-- JS `Array.indexOf` under value equality. -/
def idxOfNode (l : List DFSNode) (n : DFSNode) : Nat :=
  l.findIdx fun m => decide (m = n)

/-- The source's `createDFSLayout`: groups nodes by depth, spreads each
depth level evenly over `max innerWidth (count * minSpacing)` centred on
the inner width (a lone node at the horizontal centre), places each depth
at `depth / max maxDepth 1` of the inner height, and resolves connection
id pairs into links between positioned nodes. Margins are 40 on every
side, node radius 20, minimum spacing 60. -/
def createDFSLayout (nodes : List DFSNode) (connections : List (Nat × Nat))
    (w h : ℚ) : List PositionedNode × List (PositionedNode × PositionedNode) :=
  if nodes = [] then ([], [])
  else
    let maxDepth : Nat := (nodes.map DFSNode.depth).foldl max 0
    let innerWidth : ℚ := w - 80
    let innerHeight : ℚ := h - 80
    let minSpacing : ℚ := 60
    let positioned : List PositionedNode := nodes.map fun n =>
      let depthNodes := nodes.filter fun m => m.depth = n.depth
      let nodeIndex : Nat := idxOfNode depthNodes n
      let total : Nat := depthNodes.length
      let requiredWidth : ℚ := total * minSpacing
      let availableWidth : ℚ := max innerWidth requiredWidth
      let x : ℚ :=
        if total = 1 then innerWidth / 2
        else
          let actualSpacing : ℚ := max minSpacing (availableWidth / total)
          nodeIndex * actualSpacing + actualSpacing / 2 -
            availableWidth / 2 + innerWidth / 2
      let y : ℚ := (n.depth : ℚ) / ((max maxDepth 1 : ℕ) : ℚ) * innerHeight
      ⟨n.element, n.depth, n.parent, n.id, x + 40, y + 40⟩
    let links := connections.filterMap fun conn =>
      match positioned.find? (fun n => n.id == conn.1),
            positioned.find? (fun n => n.id == conn.2) with
      | some pn, some cn => some (pn, cn)
      | _, _ => none
    (positioned, links)

/-- A react-flow node produced by `buildFlowData`. -/
structure FlowNode where
  id : String
  x : ℚ
  y : ℚ
  label : String
deriving DecidableEq, Repr

/-- A react-flow edge produced by `buildFlowData`. -/
structure FlowEdge where
  id : String
  source : String
  target : String
deriving DecidableEq, Repr

/-- The `(id, y, label)` projection of a flow node: everything except the
randomized x coordinate. -/
def FlowNode.stripX (n : FlowNode) : String × ℚ × String :=
  (n.id, n.y, n.label)

mutual

/-- The source's `traverse` inside `buildFlowData`: assigns the node the
current counter value as id, position `x = Math.random() * 400` (the
random stream is modelled by `rand`, drawn at the node's counter index)
and `y = idCounter * 80` with the counter already incremented, emits an
edge from the parent when present, then recurses into the children. -/
def flowTraverse (rand : Nat → ℚ) (node : RecipeNode) (parentId : Option String)
    (st : Nat × List FlowNode × List FlowEdge) :
    Nat × List FlowNode × List FlowEdge :=
  match node with
  | RecipeNode.mk el rs =>
    let k := st.1
    let id := toString k
    let nodes' := st.2.1 ++ [⟨id, rand k * 400, ((k + 1 : Nat) : ℚ) * 80, el⟩]
    let edges' :=
      match parentId with
      | some pid => st.2.2 ++ [⟨"e" ++ pid ++ "-" ++ id, pid, id⟩]
      | none => st.2.2
    flowTraverseList rand rs id (k + 1, nodes', edges')

/-- Left-to-right recursion of `flowTraverse` over the child list. -/
def flowTraverseList (rand : Nat → ℚ) (l : List RecipeNode) (parentId : String)
    (st : Nat × List FlowNode × List FlowEdge) :
    Nat × List FlowNode × List FlowEdge :=
  match l with
  | [] => st
  | c :: cs => flowTraverseList rand cs parentId (flowTraverse rand c (some parentId) st)

end

/-- The source's `buildFlowData`: traverses the tree from the root with a
fresh counter and returns the accumulated nodes and edges. -/
def buildFlowData (rand : Nat → ℚ) (root : RecipeNode) :
    List FlowNode × List FlowEdge :=
  let st := flowTraverse rand root none (0, [], [])
  (st.2.1, st.2.2)

/-- Subtree-occurrence relation on recipe trees: `Occurs m n` holds when
`m` is `n` itself or a node of one of `n`'s ingredient sub-trees. -/
inductive Occurs : RecipeNode → RecipeNode → Prop
  | refl (n : RecipeNode) : Occurs n n
  | child {m c : RecipeNode} {el : String} {rs : List RecipeNode} :
      c ∈ rs → Occurs m c → Occurs m (RecipeNode.mk el rs)

/-- Subtree-occurrence relation on raw payload trees. -/
inductive OccursR : RNode → RNode → Prop
  | refl (n : RNode) : OccursR n n
  | child {m c : RNode} {oe : Option String} {rs : List RNode} :
      c ∈ rs → OccursR m c → OccursR m (RNode.mk oe rs)

/-- The bottom-up ordering property claimed for an extracted recipe list:
whenever row `j` consumes the result of row `i`, row `i` comes first. -/
def bottomUpOrdered (L : List Recipe) : Prop :=
  ∀ i j : Fin L.length,
    (L.get i).result ∈ (L.get j).ingredients → (i : ℕ) < (j : ℕ)

instance (L : List Recipe) : Decidable (bottomUpOrdered L) := by
  unfold bottomUpOrdered; infer_instance

mutual

/-- A raw tree is well formed when every node has a truthy element
field. -/
def validTree : RNode → Bool
  | RNode.mk oe rs => (elVal oe).isSome && validList rs

/-- All trees of the list are well formed. -/
def validList : List RNode → Bool
  | [] => true
  | c :: cs => validTree c && validList cs

end

mutual

/-- The visited set returned by `extractRecipes` is exactly the results
it emitted (most recent first) on top of the incoming visited set. -/
theorem extract_vis_eq (n : RecipeNode) (v : List String) :
    (extractRecipes n v).2 = ((extractRecipes n v).1.map Recipe.result).reverse ++ v := by
  match n with
  | RecipeNode.mk el rs =>
    match rs with
    | [] => simp [extractRecipes]
    | c :: cs =>
      have h := extractList_vis_eq (c :: cs) v
      simp only [extractRecipes]
      split
      · exact h
      · simp [h]

/-- List version of `extract_vis_eq`. -/
theorem extractList_vis_eq (l : List RecipeNode) (v : List String) :
    (extractList l v).2 = ((extractList l v).1.map Recipe.result).reverse ++ v := by
  match l with
  | [] => simp [extractList]
  | c :: cs =>
    have h1 := extract_vis_eq c v
    have h2 := extractList_vis_eq cs (extractRecipes c v).2
    simp only [extractList]
    rw [h2, h1]
    simp [List.append_assoc]

end

/-- The incoming visited set survives `extractRecipes`. -/
theorem extract_vis_mono (n : RecipeNode) (v : List String) :
    v ⊆ (extractRecipes n v).2 := by
  rw [extract_vis_eq]; exact List.subset_append_right _ _

/-- The incoming visited set survives `extractList`. -/
theorem extractList_vis_mono (l : List RecipeNode) (v : List String) :
    v ⊆ (extractList l v).2 := by
  rw [extractList_vis_eq]; exact List.subset_append_right _ _

mutual

/-- The results emitted by `extractRecipes` are pairwise distinct and
fresh with respect to the incoming visited set. -/
theorem extract_nodup (n : RecipeNode) (v : List String) :
    ((extractRecipes n v).1.map Recipe.result).Nodup ∧
      ∀ x ∈ (extractRecipes n v).1.map Recipe.result, x ∉ v := by
  match n with
  | RecipeNode.mk el rs =>
    match rs with
    | [] => simp [extractRecipes]
    | c :: cs =>
      have h := extractList_nodup (c :: cs) v
      have hv := extractList_vis_eq (c :: cs) v
      simp only [extractRecipes]
      split
      · exact h
      · rename_i hm
        rw [hv] at hm
        simp only [List.mem_append, List.mem_reverse, not_or] at hm
        constructor
        · simp only [List.map_append, List.map_cons, List.map_nil]
          refine List.Nodup.append h.1 (by simp) ?_
          intro x hx hx'
          simp at hx'
          exact hm.1 (hx' ▸ hx)
        · intro x hx
          simp only [List.map_append, List.mem_append, List.map_cons,
            List.map_nil, List.mem_singleton] at hx
          rcases hx with hx | hx
          · exact h.2 x hx
          · exact hx ▸ hm.2

/-- List version of `extract_nodup`. -/
theorem extractList_nodup (l : List RecipeNode) (v : List String) :
    ((extractList l v).1.map Recipe.result).Nodup ∧
      ∀ x ∈ (extractList l v).1.map Recipe.result, x ∉ v := by
  match l with
  | [] => simp [extractList]
  | c :: cs =>
    have h1 := extract_nodup c v
    have h2 := extractList_nodup cs (extractRecipes c v).2
    have hv1 := extract_vis_eq c v
    simp only [extractList, List.map_append]
    have hfresh : ∀ x ∈ (extractList cs (extractRecipes c v).2).1.map Recipe.result,
        x ∉ (extractRecipes c v).1.map Recipe.result ∧ x ∉ v := by
      intro x hx
      have := h2.2 x hx
      rw [hv1] at this
      simp only [List.mem_append, List.mem_reverse, not_or] at this
      exact this
    constructor
    · refine List.Nodup.append h1.1 h2.1 ?_
      intro x hx hx'
      exact (hfresh x hx').1 hx
    · intro x hx
      rcases List.mem_append.mp hx with hx | hx
      · exact h1.2 x hx
      · exact (hfresh x hx).2

end

/-- A string known to be in the visited set after processing one member
of a list is in the visited set after processing the whole list. -/
theorem extractList_vis_of_mem (y : String) (l : List RecipeNode) (c : RecipeNode)
    (hc : c ∈ l) (hy : ∀ w, y ∈ (extractRecipes c w).2) (v : List String) :
    y ∈ (extractList l v).2 := by
  induction l generalizing v with
  | nil => cases hc
  | cons d ds ih =>
    simp only [extractList]
    rcases List.mem_cons.mp hc with h | h
    · subst h
      exact extractList_vis_mono ds _ (hy v)
    · exact ih h _

/-- Every non-leaf occurrence's element ends up in the visited set
returned by `extractRecipes`, whatever the incoming visited set. -/
theorem extract_nonleaf_vis (m n : RecipeNode) (hocc : Occurs m n)
    (hne : m.recipes ≠ []) : ∀ v, m.element ∈ (extractRecipes n v).2 := by
  induction hocc with
  | refl =>
    intro v
    obtain ⟨el, rs⟩ := m
    cases rs with
    | nil => exact absurd rfl hne
    | cons c cs =>
      simp only [extractRecipes, RecipeNode.element]
      split
      · assumption
      · exact List.mem_cons_self _ _
  | @child c el rs hc hsub ih =>
    intro v
    cases rs with
    | nil => cases hc
    | cons d ds =>
      simp only [extractRecipes]
      have hmem : m.element ∈ (extractList (d :: ds) v).2 :=
        extractList_vis_of_mem _ _ _ hc ih v
      split
      · exact hmem
      · exact List.mem_cons_of_mem _ hmem

mutual

/-- Every row emitted by `extractRecipes` comes from a non-leaf
occurrence of the tree, carries that occurrence's ingredient elements in
order, and follows the rows of all its non-leaf direct ingredients unless
their element was already visited on entry. -/
theorem extract_entries (n : RecipeNode) (v : List String) :
    ∀ i, (hi : i < (extractRecipes n v).1.length) →
      ∃ m, Occurs m n ∧ m.recipes ≠ [] ∧
        ((extractRecipes n v).1[i]).result = m.element ∧
        ((extractRecipes n v).1[i]).ingredients = m.recipes.map RecipeNode.element ∧
        ∀ c ∈ m.recipes, c.recipes ≠ [] →
          c.element ∈ v ∨ ∃ j, ∃ hj : j < (extractRecipes n v).1.length,
            j < i ∧ ((extractRecipes n v).1[j]).result = c.element := by
  match n with
  | RecipeNode.mk el rs =>
    match rs with
    | [] => intro i hi; simp [extractRecipes] at hi
    | c :: cs =>
      have hIH := extractList_entries (c :: cs) v
      have hv := extractList_vis_eq (c :: cs) v
      simp only [extractRecipes]
      split
      · intro i hi
        obtain ⟨m, ⟨c', hc', hocc⟩, hne, hres, hing, hord⟩ := hIH i hi
        exact ⟨m, Occurs.child hc' hocc, hne, hres, hing, hord⟩
      · intro i hi
        rw [List.length_append, List.length_singleton] at hi
        by_cases hlt : i < (extractList (c :: cs) v).1.length
        · obtain ⟨m, ⟨c', hc', hocc⟩, hne, hres, hing, hord⟩ := hIH i hlt
          rw [List.getElem_append_left hlt]
          refine ⟨m, Occurs.child hc' hocc, hne, hres, hing, ?_⟩
          intro d hd hdne
          rcases hord d hd hdne with h | ⟨j, hj, hji, hjr⟩
          · exact Or.inl h
          · exact Or.inr ⟨j, by simp; omega,
              hji, by rw [List.getElem_append_left hj]; exact hjr⟩
        · have hieq : i = (extractList (c :: cs) v).1.length := by omega
          rw [List.getElem_concat_length _ _ _ hieq.symm.symm]
          refine ⟨RecipeNode.mk el (c :: cs), Occurs.refl _, by simp [RecipeNode.recipes],
            rfl, rfl, ?_⟩
          intro d hd hdne
          have hdv : d.element ∈ (extractList (c :: cs) v).2 :=
            extractList_vis_of_mem _ _ _ hd
              (extract_nonleaf_vis d d (Occurs.refl d) hdne) v
          rw [hv] at hdv
          rcases List.mem_append.mp hdv with h | h
          · rw [List.mem_reverse] at h
            obtain ⟨a, ha, har⟩ := List.mem_map.mp h
            obtain ⟨j, hj, hja⟩ := List.mem_iff_getElem.mp ha
            refine Or.inr ⟨j, by simp; omega, by omega, ?_⟩
            rw [List.getElem_append_left hj, hja, har]
          · exact Or.inl h

/-- List version of `extract_entries`, with the originating occurrence
located in one of the list's trees. -/
theorem extractList_entries (l : List RecipeNode) (v : List String) :
    ∀ i, (hi : i < (extractList l v).1.length) →
      ∃ m, (∃ c ∈ l, Occurs m c) ∧ m.recipes ≠ [] ∧
        ((extractList l v).1[i]).result = m.element ∧
        ((extractList l v).1[i]).ingredients = m.recipes.map RecipeNode.element ∧
        ∀ c ∈ m.recipes, c.recipes ≠ [] →
          c.element ∈ v ∨ ∃ j, ∃ hj : j < (extractList l v).1.length,
            j < i ∧ ((extractList l v).1[j]).result = c.element := by
  match l with
  | [] => intro i hi; simp [extractList] at hi
  | c :: cs =>
    have hnode := extract_entries c v
    have hlist := extractList_entries cs (extractRecipes c v).2
    have hv1 := extract_vis_eq c v
    simp only [extractList]
    intro i hi
    rw [List.length_append] at hi
    by_cases hlt : i < (extractRecipes c v).1.length
    · obtain ⟨m, hocc, hne, hres, hing, hord⟩ := hnode i hlt
      rw [List.getElem_append_left hlt]
      refine ⟨m, ⟨c, List.mem_cons_self _ _, hocc⟩, hne, hres, hing, ?_⟩
      intro d hd hdne
      rcases hord d hd hdne with h | ⟨j, hj, hji, hjr⟩
      · exact Or.inl h
      · exact Or.inr ⟨j, by simp; omega,
          hji, by rw [List.getElem_append_left hj]; exact hjr⟩
    · have hge : (extractRecipes c v).1.length ≤ i := by omega
      have hi' : i - (extractRecipes c v).1.length <
          (extractList cs (extractRecipes c v).2).1.length := by omega
      obtain ⟨m, ⟨c', hc', hocc⟩, hne, hres, hing, hord⟩ := hlist _ hi'
      rw [List.getElem_append_right hge]
      refine ⟨m, ⟨c', List.mem_cons_of_mem _ hc', hocc⟩, hne, hres, hing, ?_⟩
      intro d hd hdne
      rcases hord d hd hdne with h | ⟨j, hj, hji, hjr⟩
      · rw [hv1] at h
        rcases List.mem_append.mp h with h | h
        · rw [List.mem_reverse] at h
          obtain ⟨a, ha, har⟩ := List.mem_map.mp h
          obtain ⟨j, hj, hja⟩ := List.mem_iff_getElem.mp ha
          refine Or.inr ⟨j, by simp; omega, by omega, ?_⟩
          rw [List.getElem_append_left hj, hja, har]
        · exact Or.inl h
      · refine Or.inr ⟨(extractRecipes c v).1.length + j, by simp; omega, by omega, ?_⟩
        rw [List.getElem_append_right (by omega : (extractRecipes c v).1.length ≤
          (extractRecipes c v).1.length + j)]
        simpa using hjr

end

/-- C2, counterexample: in the tree `R = [N, X]` where `N = [X, Y]` with
`X` a leaf under `N`, and the second branch `X = [W, Z]` is a non-leaf,
`extractRecipes` emits the row for `N` (which consumes `X`) before the
row for `X`, so the claimed bottom-up ordering of the output fails. -/
theorem extractRecipes_not_bottomUpOrdered :
    (extractRecipes
        (.mk "R" [.mk "N" [.mk "X" [], .mk "Y" []],
                  .mk "X" [.mk "W" [], .mk "Z" []]]) []).1 =
      [⟨"N", ["X", "Y"]⟩, ⟨"X", ["W", "Z"]⟩, ⟨"R", ["N", "X"]⟩] ∧
    ¬ bottomUpOrdered (extractRecipes
        (.mk "R" [.mk "N" [.mk "X" [], .mk "Y" []],
                  .mk "X" [.mk "W" [], .mk "Z" []]]) []).1 := by
  constructor
  · decide
  · decide

/-- C2, amended: the extracted list has pairwise-distinct results, a
recipe-less root yields the empty list, and every row comes from a
non-leaf occurrence of the tree whose ingredient elements it carries in
order; the row of every ingredient that is itself a non-leaf at its
occurrence under that node appears strictly earlier in the list (an
ingredient that is a leaf there but non-leaf in a later branch may be
emitted later, as the counterexample shows). -/
theorem extractRecipes_amended (root : RecipeNode) :
    ((extractRecipes root []).1.map Recipe.result).Nodup ∧
    (root.recipes = [] → (extractRecipes root []).1 = []) ∧
    ∀ i, (hi : i < (extractRecipes root []).1.length) →
      ∃ m, Occurs m root ∧ m.recipes ≠ [] ∧
        ((extractRecipes root []).1[i]).result = m.element ∧
        ((extractRecipes root []).1[i]).ingredients = m.recipes.map RecipeNode.element ∧
        ∀ c ∈ m.recipes, c.recipes ≠ [] →
          ∃ j, ∃ hj : j < (extractRecipes root []).1.length,
            j < i ∧ ((extractRecipes root []).1[j]).result = c.element := by
  refine ⟨(extract_nodup root []).1, ?_, ?_⟩
  · obtain ⟨el, rs⟩ := root
    intro h
    simp only [RecipeNode.recipes] at h
    subst h
    simp [extractRecipes]
  · intro i hi
    obtain ⟨m, hocc, hne, hres, hing, hord⟩ := extract_entries root [] i hi
    refine ⟨m, hocc, hne, hres, hing, ?_⟩
    intro c hc hcne
    rcases hord c hc hcne with h | h
    · cases h
    · exact h

/-- C2, witness: the amended theorem applied to a leaf-only root. -/
theorem extractRecipes_amended_witness :
    (extractRecipes (RecipeNode.mk "Water" []) []).1 = [] :=
  (extractRecipes_amended (RecipeNode.mk "Water" [])).2.1 rfl

/-- Membership in a set after `sadd`. -/
theorem mem_sadd {s : List String} {x y : String} :
    x ∈ sadd s y ↔ x ∈ s ∨ x = y := by
  unfold sadd
  split
  · rename_i h
    constructor
    · exact Or.inl
    · rintro (hx | rfl)
      · exact hx
      · exact h
  · simp

/-- `sadd` only grows the set. -/
theorem sadd_subset (s : List String) (y : String) : s ⊆ sadd s y := by
  intro x hx; exact mem_sadd.mpr (Or.inl hx)

/-- Membership after folding `sadd` over a list. -/
theorem mem_foldl_sadd (l : List String) (s : List String) (x : String) :
    x ∈ l.foldl sadd s ↔ x ∈ s ∨ x ∈ l := by
  induction l generalizing s with
  | nil => simp
  | cons a as ih =>
    simp only [List.foldl_cons, ih, mem_sadd, List.mem_cons]
    constructor
    · rintro ((h | rfl) | h)
      · exact Or.inl h
      · exact Or.inr (Or.inl rfl)
      · exact Or.inr (Or.inr h)
    · rintro (h | rfl | h)
      · exact Or.inl (Or.inl h)
      · exact Or.inl (Or.inr rfl)
      · exact Or.inr h

/-- Membership in `addAll`. -/
theorem mem_addAll (s l : List String) (x : String) :
    x ∈ addAll s l ↔ x ∈ s ∨ x ∈ l :=
  mem_foldl_sadd l s x

/-- `addAll` only grows the set. -/
theorem addAll_subset (s l : List String) : s ⊆ addAll s l := by
  intro x hx; exact (mem_addAll s l x).mpr (Or.inl hx)

/-- Membership after the meeting-point fold over the forward set. -/
theorem mem_meetFold (f b m0 : List String) (x : String) :
    x ∈ f.foldl (fun m e => if e ∈ b then sadd m e else m) m0 ↔
      x ∈ m0 ∨ (x ∈ f ∧ x ∈ b) := by
  induction f generalizing m0 with
  | nil => simp
  | cons a as ih =>
    simp only [List.foldl_cons]
    by_cases hab : a ∈ b
    · rw [if_pos hab, ih]
      simp only [mem_sadd, List.mem_cons]
      constructor
      · rintro ((h | rfl) | ⟨h1, h2⟩)
        · exact Or.inl h
        · exact Or.inr ⟨Or.inl rfl, hab⟩
        · exact Or.inr ⟨Or.inr h1, h2⟩
      · rintro (h | ⟨rfl | h1, h2⟩)
        · exact Or.inl (Or.inl h)
        · exact Or.inl (Or.inr rfl)
        · exact Or.inr ⟨h1, h2⟩
    · rw [if_neg hab, ih]
      simp only [List.mem_cons]
      constructor
      · rintro (h | ⟨h1, h2⟩)
        · exact Or.inl h
        · exact Or.inr ⟨Or.inr h1, h2⟩
      · rintro (h | ⟨rfl | h1, h2⟩)
        · exact Or.inl h
        · exact absurd h2 hab
        · exact Or.inr ⟨h1, h2⟩

/-- Membership in the computed meeting set: the explicit meeting points
unioned with the forward-backward intersection. -/
theorem mem_computeMeeting (mp f b : List String) (x : String) :
    x ∈ computeMeeting mp f b ↔ x ∈ mp ∨ (x ∈ f ∧ x ∈ b) := by
  unfold computeMeeting
  rw [mem_meetFold, mem_foldl_sadd]
  simp

/-- C1, counterexample: with empty visited maps, target `Wood`, and the
explicit meeting-point list `["Stone"]`, the classifier leaves `Stone` in
`meeting` although `Stone` is in neither classified set, so `meeting` is
not the intersection of `forward` and `backward`. -/
theorem meeting_not_intersection :
    "Stone" ∈ (processRecipeData "Wood"
        (.explicitMode [] [] ["Stone"])).meeting ∧
    "Stone" ∉ (processRecipeData "Wood"
        (.explicitMode [] [] ["Stone"])).forward := by
  decide

/-- C1, amended: after classification, `meeting` is exactly the union of
the explicit meeting-point list (empty for implicit inputs) with the
intersection of `forward` and `backward`; the explicit list is unioned
in, not overridden by the intersection. -/
theorem meeting_eq_union (target : String) (inp : ClassifierInput) (x : String) :
    x ∈ (processRecipeData target inp).meeting ↔
      x ∈ explicitMeetingOf inp ∨
        (x ∈ (processRecipeData target inp).forward ∧
          x ∈ (processRecipeData target inp).backward) := by
  cases inp with
  | explicitMode fwd bwd mp =>
    simp only [processRecipeData, explicitMeetingOf]
    exact mem_computeMeeting _ _ _ _
  | implicitMode t =>
    simp only [processRecipeData, explicitMeetingOf]
    rw [mem_computeMeeting]

/-- Looking up the key just written by `setConn` returns the new value. -/
theorem connLookup_setConn_self (m : List (String × List String))
    (k : String) (v : List String) : connLookup (setConn m k v) k = some v := by
  induction m with
  | nil => simp [setConn, connLookup]
  | cons e rest ih =>
    obtain ⟨k', v'⟩ := e
    by_cases h : k' = k
    · simp [setConn, h, connLookup]
    · simp [setConn, h, connLookup, ih]

/-- `setConn` does not disturb other keys. -/
theorem connLookup_setConn_other (m : List (String × List String))
    (k v : _) (k' : String) (h : k ≠ k') :
    connLookup (setConn m k v) k' = connLookup m k' := by
  induction m with
  | nil => simp [setConn, connLookup, h]
  | cons e rest ih =>
    obtain ⟨k0, v0⟩ := e
    by_cases h0 : k0 = k
    · subst h0
      simp [setConn, connLookup, h]
    · simp [setConn, h0, connLookup, ih]

/-- `setConn` never removes a key. -/
theorem connLookup_setConn_isSome (m : List (String × List String))
    (k v : _) (k' : String) (h : (connLookup m k').isSome) :
    (connLookup (setConn m k v) k').isSome := by
  by_cases hk : k = k'
  · subst hk; simp [connLookup_setConn_self]
  · rw [connLookup_setConn_other m k v k' hk]; exact h

/-- The set built by the explicit-mode loop contains its seed. -/
theorem processVisited_set_mono (vis : VisitedMap) (s : List String)
    (c : List (String × List String)) : s ⊆ (processVisited vis s c).1 := by
  induction vis generalizing s c with
  | nil => exact fun x hx => hx
  | cons e rest ih =>
    obtain ⟨k, ov⟩ := e
    intro x hx
    have hx' : x ∈ sadd s k := sadd_subset s k hx
    cases ov with
    | none => exact ih (sadd s k) c hx'
    | some l =>
      by_cases hl : l = [] <;> simp only [processVisited, List.foldl_cons, hl] <;>
        [exact ih (sadd s k) c hx'; exact ih (sadd s k) (setConn c k l) hx']

/-- Membership in the set built by the explicit-mode loop: the seed plus
the map's keys. -/
theorem processVisited_set_mem (vis : VisitedMap) (s : List String)
    (c : List (String × List String)) (x : String) :
    x ∈ (processVisited vis s c).1 ↔ x ∈ s ∨ x ∈ vis.map Prod.fst := by
  induction vis generalizing s c with
  | nil => simp [processVisited]
  | cons e rest ih =>
    obtain ⟨k, ov⟩ := e
    have hstep : ∀ c', x ∈ (processVisited rest (sadd s k) c').1 ↔
        x ∈ s ∨ x = k ∨ x ∈ rest.map Prod.fst := by
      intro c'
      rw [ih (sadd s k) c']
      simp only [mem_sadd]
      constructor
      · rintro ((h | rfl) | h)
        · exact Or.inl h
        · exact Or.inr (Or.inl rfl)
        · exact Or.inr (Or.inr h)
      · rintro (h | rfl | h)
        · exact Or.inl (Or.inl h)
        · exact Or.inl (Or.inr rfl)
        · exact Or.inr h
    cases ov with
    | none => simpa [processVisited] using hstep c
    | some l =>
      by_cases hl : l = [] <;>
        simp only [processVisited, List.foldl_cons, hl, if_pos, if_neg,
          List.map_cons, List.mem_cons] <;>
        [simpa [processVisited] using hstep c;
         simpa [processVisited] using hstep (setConn c k l)]

/-- Unfolding of the explicit-mode loop on an entry without recipe
data. -/
theorem processVisited_cons_none (k : String) (rest : VisitedMap)
    (s : List String) (c : List (String × List String)) :
    processVisited ((k, none) :: rest) s c = processVisited rest (sadd s k) c :=
  rfl

/-- Unfolding of the explicit-mode loop on an entry with an empty recipe
list. -/
theorem processVisited_cons_nil (k : String) (rest : VisitedMap)
    (s : List String) (c : List (String × List String)) :
    processVisited ((k, some []) :: rest) s c = processVisited rest (sadd s k) c :=
  rfl

/-- Unfolding of the explicit-mode loop on an entry with a non-empty
recipe list. -/
theorem processVisited_cons_some (k : String) (l : List String)
    (rest : VisitedMap) (s : List String) (c : List (String × List String))
    (hl : l ≠ []) :
    processVisited ((k, some l) :: rest) s c =
      processVisited rest (sadd s k) (setConn c k l) := by
  simp only [processVisited, List.foldl_cons]
  rw [if_neg hl]

/-- Keys not named by any entry of the loop keep their connection
lookup. -/
theorem processVisited_conn_preserve (vis : VisitedMap) (s : List String)
    (c : List (String × List String)) (e : String)
    (he : e ∉ vis.map Prod.fst) :
    connLookup (processVisited vis s c).2 e = connLookup c e := by
  induction vis generalizing s c with
  | nil => rfl
  | cons ent rest ih =>
    obtain ⟨k, ov⟩ := ent
    simp only [List.map_cons, List.mem_cons, not_or] at he
    cases ov with
    | none => exact ih (sadd s k) c he.2
    | some l =>
      by_cases hl : l = []
      · subst hl
        rw [processVisited_cons_nil]
        exact ih (sadd s k) c he.2
      · rw [processVisited_cons_some k l rest s c hl,
          ih (sadd s k) (setConn c k l) he.2,
          connLookup_setConn_other c k l e fun h => he.1 (h ▸ rfl)]

/-- After the explicit-mode loop over a map with duplicate-free keys, a
key carrying a non-empty recipe list looks up exactly that list. -/
theorem processVisited_conn_last (vis : VisitedMap) (s : List String)
    (c : List (String × List String)) (e : String) (l : List String)
    (hnd : (vis.map Prod.fst).Nodup) (hmem : (e, some l) ∈ vis) (hl : l ≠ []) :
    connLookup (processVisited vis s c).2 e = some l := by
  induction vis generalizing s c with
  | nil => cases hmem
  | cons ent rest ih =>
    obtain ⟨k, ov⟩ := ent
    rw [List.map_cons, List.nodup_cons] at hnd
    rcases List.mem_cons.mp hmem with hhead | htail
    · obtain ⟨h1, h2⟩ : k = e ∧ ov = some l :=
        ⟨(congrArg Prod.fst hhead).symm, (congrArg Prod.snd hhead).symm⟩
      rw [h1, h2] at hnd ⊢
      rw [processVisited_cons_some e l rest s c hl,
        processVisited_conn_preserve rest _ _ e hnd.1,
        connLookup_setConn_self]
    · cases ov with
      | none => exact ih (sadd s k) c hnd.2 htail
      | some l0 =>
        by_cases hl0 : l0 = []
        · subst hl0
          rw [processVisited_cons_nil]
          exact ih (sadd s k) c hnd.2 htail
        · rw [processVisited_cons_some k l0 rest s c hl0]
          exact ih (sadd s k) (setConn c k l0) hnd.2 htail

/-- C10: in explicit mode, when the same element carries a non-empty
recipe list in both visited maps, the final connection entry is the
backward map's list: the backward loop runs second and overwrites the
forward entry. -/
theorem connections_backward_overwrites (target : String) (fwd bwd : VisitedMap)
    (mp : List String) (e : String) (l1 l2 : List String)
    (hnd : (bwd.map Prod.fst).Nodup)
    (_h1 : (e, some l1) ∈ fwd) (_hl1 : l1 ≠ [])
    (h2 : (e, some l2) ∈ bwd) (hl2 : l2 ≠ []) :
    connLookup (processRecipeData target
      (.explicitMode fwd bwd mp)).connections e = some l2 := by
  simp only [processRecipeData]
  exact processVisited_conn_last bwd [target] _ e l2 hnd h2 hl2

/-- C10, witness: `Wood` maps to `[Water, Earth]` forward and to
`[Mud, Fire]` backward; the classifier keeps the backward list. -/
theorem connections_backward_overwrites_witness :
    connLookup (processRecipeData "Wood"
      (.explicitMode [("Wood", some ["Water", "Earth"])]
        [("Wood", some ["Mud", "Fire"])] [])).connections "Wood" =
      some ["Mud", "Fire"] :=
  connections_backward_overwrites "Wood" [("Wood", some ["Water", "Earth"])]
    [("Wood", some ["Mud", "Fire"])] [] "Wood" ["Water", "Earth"] ["Mud", "Fire"]
    (by decide) (by decide) (by decide) (by decide) (by decide)

/-- C5: classifying the explicit payload
`forwardVisited = Water:{}, Wood:{Recipe:[Water,Earth]}`,
`backwardVisited = Wood:{}` with no explicit meeting points and target
`Wood` yields forward `{Water, Wood, Fire, Earth, Air}`, backward
`{Wood}`, meeting `{Wood}`, and connections `Wood ↦ [Water, Earth]`. -/
theorem explicit_scenario_wood :
    processRecipeData "Wood"
        (.explicitMode [("Water", none), ("Wood", some ["Water", "Earth"])]
          [("Wood", none)] []) =
      ⟨["Water", "Fire", "Earth", "Air", "Wood"], ["Wood"], ["Wood"],
        [("Wood", ["Water", "Earth"])]⟩ ∧
    ∀ x : String,
      x ∈ (processRecipeData "Wood"
        (.explicitMode [("Water", none), ("Wood", some ["Water", "Earth"])]
          [("Wood", none)] [])).forward ↔
        x = "Water" ∨ x = "Wood" ∨ x = "Fire" ∨ x = "Earth" ∨ x = "Air" := by
  refine ⟨by decide, ?_⟩
  intro x
  rw [show (processRecipeData "Wood"
      (.explicitMode [("Water", none), ("Wood", some ["Water", "Earth"])]
        [("Wood", none)] [])).forward =
      ["Water", "Fire", "Earth", "Air", "Wood"] from by decide]
  simp only [List.mem_cons, List.not_mem_nil, or_false]
  tauto

/-- One classification state grows into another: both classified sets are
preserved and no connection key disappears. -/
def GrowsTo (s t : CState) : Prop :=
  s.forward ⊆ t.forward ∧ s.backward ⊆ t.backward ∧
    ∀ k, (connLookup s.connections k).isSome →
      (connLookup t.connections k).isSome

/-- `GrowsTo` is reflexive. -/
theorem GrowsTo.rfl {s : CState} : GrowsTo s s :=
  ⟨fun _ h => h, fun _ h => h, fun _ h => h⟩

/-- `GrowsTo` is transitive. -/
theorem GrowsTo.trans {s t u : CState} (h1 : GrowsTo s t) (h2 : GrowsTo t u) :
    GrowsTo s u :=
  ⟨fun _ hx => h2.1 (h1.1 hx), fun _ hx => h2.2.1 (h1.2.1 hx),
    fun k hk => h2.2.2 k (h1.2.2 k hk)⟩

/-- Adding to the forward set grows the state. -/
theorem growsTo_updForward (s : CState) (x : String) :
    GrowsTo s { s with forward := sadd s.forward x } :=
  ⟨sadd_subset _ _, fun _ h => h, fun _ h => h⟩

/-- Adding to the backward set grows the state. -/
theorem growsTo_updBackward (s : CState) (x : String) :
    GrowsTo s { s with backward := sadd s.backward x } :=
  ⟨fun _ h => h, sadd_subset _ _, fun _ h => h⟩

/-- Adding many elements to the backward set grows the state. -/
theorem growsTo_addAllBackward (s : CState) (x : String) (l : List String) :
    GrowsTo s { s with backward := addAll (sadd s.backward x) l } :=
  ⟨fun _ h => h, fun _ hy => addAll_subset _ _ (sadd_subset _ _ hy), fun _ h => h⟩

/-- Adding many elements to the forward set grows the state. -/
theorem growsTo_addAllForward (s : CState) (x : String) (l : List String) :
    GrowsTo s { s with forward := addAll (sadd s.forward x) l } :=
  ⟨fun _ hy => addAll_subset _ _ (sadd_subset _ _ hy), fun _ h => h, fun _ h => h⟩

/-- Writing a connection entry grows the state. -/
theorem growsTo_setConn (s : CState) (k : String) (v : List String) :
    GrowsTo s { s with connections := setConn s.connections k v } :=
  ⟨fun _ h => h, fun _ h => h, fun k' h => connLookup_setConn_isSome _ k v k' h⟩

/-- The base-element step grows the state. -/
theorem growsTo_addBaseForward (el : String) (s : CState) :
    GrowsTo s (addBaseForward el s) := by
  unfold addBaseForward
  split
  · exact growsTo_updForward s el
  · exact GrowsTo.rfl

/-- The target step grows the state. -/
theorem growsTo_addTargetBackward (target el : String) (s : CState) :
    GrowsTo s (addTargetBackward target el s) := by
  unfold addTargetBackward
  split
  · exact growsTo_updBackward s el
  · exact GrowsTo.rfl

/-- The leaf branch grows the state. -/
theorem growsTo_classifyLeaf (target el : String) (s : CState) :
    GrowsTo s (classifyLeaf target el s) := by
  unfold classifyLeaf
  split
  · exact growsTo_updBackward s el
  · split
    · exact growsTo_updForward s el
    · exact GrowsTo.rfl

/-- The record-and-classify step grows the state. -/
theorem growsTo_recordAndClassify (target el : String) (flag : Bool)
    (ingredients : List String) (s : CState) :
    GrowsTo s (recordAndClassify target el flag ingredients s) := by
  unfold recordAndClassify
  refine GrowsTo.trans (growsTo_setConn s el ingredients) ?_
  split
  · exact growsTo_addAllBackward _ el ingredients
  · exact growsTo_addAllForward _ el ingredients

mutual

/-- Processing a node only grows the classification state. -/
theorem processNode_grows (target : String) (n : RNode) (flag : Bool)
    (s : CState) : GrowsTo s (processNode target n flag s) := by
  match n with
  | RNode.mk oe rs =>
    simp only [processNode]
    split
    · exact GrowsTo.rfl
    · rename_i el _
      have g12 : GrowsTo s (addTargetBackward target el (addBaseForward el s)) :=
        GrowsTo.trans (growsTo_addBaseForward el s)
          (growsTo_addTargetBackward target el _)
      match rs with
      | [] => exact GrowsTo.trans g12 (growsTo_classifyLeaf target el _)
      | c :: cs =>
        show GrowsTo s (if validIngredients (c :: cs) = [] then
            addTargetBackward target el (addBaseForward el s)
          else processChildren target (c :: cs) flag (validIngredients (c :: cs))
            (recordAndClassify target el flag (validIngredients (c :: cs))
              (addTargetBackward target el (addBaseForward el s))))
        split
        · exact g12
        · refine GrowsTo.trans g12 ?_
          refine GrowsTo.trans
            (growsTo_recordAndClassify target el flag (validIngredients (c :: cs)) _) ?_
          exact processChildren_grows target (c :: cs) flag _ _

/-- Processing a child list only grows the classification state. -/
theorem processChildren_grows (target : String) (l : List RNode) (flag : Bool)
    (ingredients : List String) (s : CState) :
    GrowsTo s (processChildren target l flag ingredients s) := by
  match l with
  | [] => exact GrowsTo.rfl
  | c :: cs =>
    simp only [processChildren]
    exact GrowsTo.trans (processNode_grows target c _ s)
      (processChildren_grows target cs flag ingredients _)

end

/-- Building the implicit classification only grows the state. -/
theorem buildBidirectional_grows (target : String) (n : RNode) (s : CState) :
    GrowsTo s (buildBidirectionalFromRecipeTree target n s) := by
  unfold buildBidirectionalFromRecipeTree
  match elOf n with
  | none => exact GrowsTo.rfl
  | some _ => exact processNode_grows target n _ s

/-- C4: for every classifier input, explicit or implicit, the four base
elements end up in the forward set and the requested target in the
backward set. -/
theorem base_forward_target_backward (target : String) (inp : ClassifierInput) :
    (∀ b ∈ baseElements, b ∈ (processRecipeData target inp).forward) ∧
    target ∈ (processRecipeData target inp).backward := by
  cases inp with
  | explicitMode fwd bwd mp =>
    constructor
    · intro b hb
      exact processVisited_set_mono fwd baseElements [] hb
    · exact processVisited_set_mono bwd [target] _ (List.mem_singleton.mpr rfl)
  | implicitMode t =>
    have h := buildBidirectional_grows target t ⟨baseElements, [target], []⟩
    exact ⟨fun b hb => h.1 hb, h.2.1 (List.mem_singleton.mpr rfl)⟩

/-- C9: a malformed node (falsy `element` field) is skipped by the
implicit-mode classifier: processing it leaves the state unchanged, it is
a dead end for path search, it contributes no valid ingredient, removing
it from any sibling list changes nothing for the siblings, and a
malformed root leaves the whole classification state untouched. -/
theorem malformed_node_skipped (target : String) (bad : RNode)
    (hbad : elOf bad = none) :
    (∀ flag s, processNode target bad flag s = s) ∧
    (∀ cur, findPathToTarget target bad cur = []) ∧
    (∀ l1 l2 flag ing s,
      processChildren target (l1 ++ bad :: l2) flag ing s =
        processChildren target (l1 ++ l2) flag ing s) ∧
    (∀ l1 l2 cur,
      findPathList target (l1 ++ bad :: l2) cur =
        findPathList target (l1 ++ l2) cur) ∧
    (∀ rs1 rs2, validIngredients (rs1 ++ bad :: rs2) =
      validIngredients (rs1 ++ rs2)) ∧
    (∀ s, buildBidirectionalFromRecipeTree target bad s = s) := by
  obtain ⟨oe, rs⟩ := bad
  simp only [elOf, RNode.element] at hbad
  have hproc : ∀ flag s, processNode target (RNode.mk oe rs) flag s = s := by
    intro flag s
    simp [processNode, hbad]
  have hpath : ∀ cur, findPathToTarget target (RNode.mk oe rs) cur = [] := by
    intro cur
    simp [findPathToTarget, hbad]
  refine ⟨hproc, hpath, ?_, ?_, ?_, ?_⟩
  · intro l1 l2 flag ing s
    induction l1 generalizing s with
    | nil =>
      simp only [List.nil_append, processChildren, hproc]
    | cons a as ih =>
      simp only [List.cons_append, processChildren]
      exact ih _
  · intro l1 l2 cur
    induction l1 with
    | nil => simp [findPathList, hpath]
    | cons a as ih =>
      simp only [List.cons_append, findPathList, List.append_eq]
      rw [ih]
  · intro rs1 rs2
    simp [validIngredients, List.filterMap_append, List.filterMap_cons,
      elOf, RNode.element, hbad]
  · intro s
    simp [buildBidirectionalFromRecipeTree, elOf, RNode.element, hbad]

/-- C9, witness: a node without element field is skipped in place. -/
theorem malformed_node_skipped_witness :
    processNode "Mud" (RNode.mk none [RNode.mk (some "Water") []]) true
      ⟨baseElements, ["Mud"], []⟩ = ⟨baseElements, ["Mud"], []⟩ :=
  (malformed_node_skipped "Mud" (RNode.mk none [RNode.mk (some "Water") []])
    rfl).1 true ⟨baseElements, ["Mud"], []⟩

mutual

/-- The node occurrences visited by the first-match path of
`findPathToTarget`, mirroring its recursion but returning the nodes
themselves instead of their element names (see
`findPathToTarget_eq_nodes`). -/
def findPathNodes (target : String) : RNode → List RNode
  | RNode.mk oe rs =>
    match elVal oe with
    | none => []
    | some el =>
      if el = target then [RNode.mk oe rs]
      else
        match rs with
        | [] => []
        | _ :: _ =>
          let q := findPathNodesList target rs
          if q = [] then [] else RNode.mk oe rs :: q

/-- First-match scan of `findPathNodes` over a child list. -/
def findPathNodesList (target : String) : List RNode → List RNode
  | [] => []
  | c :: cs =>
    let q := findPathNodes target c
    if q = [] then findPathNodesList target cs else q

end

mutual

/-- `findPathToTarget` returns exactly the element names of the node
occurrences collected by `findPathNodes`, prefixed by the accumulated
path, and is empty iff no path exists. -/
theorem findPathToTarget_eq_nodes (target : String) (n : RNode)
    (cur : List String) :
    findPathToTarget target n cur =
      if findPathNodes target n = [] then []
      else cur ++ (findPathNodes target n).map fun m => (elOf m).getD "" := by
  match n with
  | RNode.mk oe rs =>
    simp only [findPathToTarget, findPathNodes]
    match helv : elVal oe with
    | none => simp
    | some el =>
      simp only
      by_cases htg : el = target
      · simp [htg, elOf, RNode.element, helv]
      · simp only [if_neg htg]
        match rs with
        | [] => simp
        | c :: cs =>
          have hl := findPathList_eq_nodes target (c :: cs) (cur ++ [el])
          simp only
          rw [hl]
          by_cases hq : findPathNodesList target (c :: cs) = []
          · simp [hq]
          · simp [hq, elOf, RNode.element, helv]

/-- List version of `findPathToTarget_eq_nodes`. -/
theorem findPathList_eq_nodes (target : String) (l : List RNode)
    (cur : List String) :
    findPathList target l cur =
      if findPathNodesList target l = [] then []
      else cur ++ (findPathNodesList target l).map fun m => (elOf m).getD "" := by
  match l with
  | [] => simp [findPathList, findPathNodesList]
  | c :: cs =>
    have h1 := findPathToTarget_eq_nodes target c cur
    have h2 := findPathList_eq_nodes target cs cur
    simp only [findPathList, findPathNodesList]
    rw [h1, h2]
    by_cases hq : findPathNodes target c = []
    · simp [hq]
    · have hmapne : cur ++ (findPathNodes target c).map
          (fun m => (elOf m).getD "") ≠ [] := by
        simp [hq]
      simp [hq, hmapne]

end

/-- A non-empty path starts at a node with a truthy element field. -/
theorem findPathNodes_ne_valid (target : String) (n : RNode)
    (h : findPathNodes target n ≠ []) : (elOf n).isSome := by
  match n with
  | RNode.mk oe rs =>
    simp only [findPathNodes] at h
    match helv : elVal oe with
    | none => rw [helv] at h; exact absurd rfl h
    | some el => simp [elOf, RNode.element, helv]

/-- The path of element names is non-empty iff the path of node
occurrences is. -/
theorem findPathToTarget_ne_iff (target : String) (n : RNode) :
    findPathToTarget target n [] ≠ [] ↔ findPathNodes target n ≠ [] := by
  rw [findPathToTarget_eq_nodes]
  by_cases hq : findPathNodes target n = [] <;> simp [hq]

/-- `processNode` on a malformed node returns the state unchanged. -/
theorem processNode_eq_none (target : String) (oe : Option String)
    (rs : List RNode) (flag : Bool) (s : CState) (h : elVal oe = none) :
    processNode target (RNode.mk oe rs) flag s = s := by
  simp only [processNode]
  rw [h]

/-- `processNode` on a valid leaf reduces to the base/target steps plus
the leaf branch. -/
theorem processNode_eq_leaf (target : String) (oe : Option String) (el : String)
    (flag : Bool) (s : CState) (h : elVal oe = some el) :
    processNode target (RNode.mk oe []) flag s =
      classifyLeaf target el (addTargetBackward target el (addBaseForward el s)) := by
  simp only [processNode]
  rw [h]

/-- `processNode` on a valid node whose children are all invalid reduces
to the base/target steps only. -/
theorem processNode_eq_noing (target : String) (oe : Option String) (el : String)
    (rs : List RNode) (flag : Bool) (s : CState)
    (h : elVal oe = some el) (hrs : rs ≠ []) (hing : validIngredients rs = []) :
    processNode target (RNode.mk oe rs) flag s =
      addTargetBackward target el (addBaseForward el s) := by
  match rs, hrs with
  | c :: cs, _ =>
    simp only [processNode]
    rw [h]
    exact if_pos hing

/-- `processNode` on a valid node with valid ingredients records the
connection, classifies the node and its ingredients, and recurses. -/
theorem processNode_eq_rec (target : String) (oe : Option String) (el : String)
    (rs : List RNode) (flag : Bool) (s : CState)
    (h : elVal oe = some el) (hrs : rs ≠ []) (hing : validIngredients rs ≠ []) :
    processNode target (RNode.mk oe rs) flag s =
      processChildren target rs flag (validIngredients rs)
        (recordAndClassify target el flag (validIngredients rs)
          (addTargetBackward target el (addBaseForward el s))) := by
  match rs, hrs with
  | c :: cs, _ =>
    simp only [processNode]
    rw [h]
    exact if_neg hing

/-- After the target step with a matching element, the element is in the
backward set. -/
theorem addTargetBackward_mem_self (target : String) (s : CState) :
    target ∈ (addTargetBackward target target s).backward := by
  unfold addTargetBackward
  rw [if_pos rfl]
  exact mem_sadd.mpr (Or.inr rfl)

/-- When flagged (or at the target), `recordAndClassify` puts the element
and every ingredient into the backward set. -/
theorem recordAndClassify_backward (target el : String) (flag : Bool)
    (ing : List String) (s : CState) (h : flag = true ∨ el = target) :
    el ∈ (recordAndClassify target el flag ing s).backward ∧
      ∀ y ∈ ing, y ∈ (recordAndClassify target el flag ing s).backward := by
  unfold recordAndClassify
  have hcond : (flag || decide (el = target)) = true := by
    rcases h with h | h <;> simp [h]
  rw [if_pos hcond]
  constructor
  · exact (mem_addAll _ _ _).mpr (Or.inl (mem_sadd.mpr (Or.inr rfl)))
  · intro y hy
    exact (mem_addAll _ _ _).mpr (Or.inr hy)

/-- When unflagged at a non-target element, `recordAndClassify` puts the
element and every ingredient into the forward set. -/
theorem recordAndClassify_forward (target el : String) (ing : List String)
    (s : CState) (h : ¬ el = target) :
    el ∈ (recordAndClassify target el false ing s).forward ∧
      ∀ y ∈ ing, y ∈ (recordAndClassify target el false ing s).forward := by
  unfold recordAndClassify
  have hcond : (false || decide (el = target)) = false := by simp [h]
  rw [if_neg (by simp [hcond])]
  constructor
  · exact (mem_addAll _ _ _).mpr (Or.inl (mem_sadd.mpr (Or.inr rfl)))
  · intro y hy
    exact (mem_addAll _ _ _).mpr (Or.inr hy)

/-- A valid member of a child list contributes its element to the valid
ingredients. -/
theorem validIngredients_mem (l : List RNode) (c : RNode) (e : String)
    (hc : c ∈ l) (he : elOf c = some e) : e ∈ validIngredients l :=
  List.mem_filterMap.mpr ⟨c, hc, he⟩

/-- A non-empty first-match scan comes from some child with a non-empty
path. -/
theorem findPathNodesList_ne (target : String) (l : List RNode)
    (h : findPathNodesList target l ≠ []) :
    ∃ c ∈ l, findPathNodes target c ≠ [] := by
  induction l with
  | nil => exact absurd rfl h
  | cons c cs ih =>
    simp only [findPathNodesList] at h
    by_cases hq : findPathNodes target c = []
    · rw [if_pos hq] at h
      obtain ⟨d, hd, hdq⟩ := ih h
      exact ⟨d, List.mem_cons_of_mem _ hd, hdq⟩
    · exact ⟨c, List.mem_cons_self _ _, hq⟩

mutual

/-- Every node occurrence on the first-match path, processed with the
path flag set, ends with its element and all its valid direct ingredients
in the backward set. -/
theorem pathNodes_backward (target : String) (n : RNode) (s : CState) :
    ∀ m ∈ findPathNodes target n,
      (∀ e, elOf m = some e → e ∈ (processNode target n true s).backward) ∧
      ∀ y ∈ validIngredients m.recipes,
        y ∈ (processNode target n true s).backward := by
  match n with
  | RNode.mk oe rs =>
    simp only [findPathNodes]
    match helv : elVal oe with
    | none => simp
    | some el =>
      simp only
      have hel : elOf (RNode.mk oe rs) = some el := by
        simp [elOf, RNode.element, helv]
      by_cases htg : el = target
      · rw [if_pos htg]
        intro m hm
        rw [List.mem_singleton] at hm
        subst hm
        match rs with
        | [] =>
          rw [processNode_eq_leaf target oe el true s helv]
          constructor
          · intro e he
            rw [hel] at he
            injection he with he
            subst he
            refine (growsTo_classifyLeaf target el _).2.1 ?_
            rw [htg]
            exact addTargetBackward_mem_self target _
          · intro y hy
            simp [RNode.recipes, validIngredients] at hy
        | c :: cs =>
          by_cases hing : validIngredients (c :: cs) = []
          · rw [processNode_eq_noing target oe el (c :: cs) true s helv (List.cons_ne_nil c cs) hing]
            constructor
            · intro e he
              rw [hel] at he
              injection he with he
              subst he
              rw [htg]
              exact addTargetBackward_mem_self target _
            · intro y hy
              simp only [RNode.recipes] at hy
              rw [hing] at hy
              cases hy
          · rw [processNode_eq_rec target oe el (c :: cs) true s helv (List.cons_ne_nil c cs) hing]
            have hrec := recordAndClassify_backward target el true
              (validIngredients (c :: cs))
              (addTargetBackward target el (addBaseForward el s)) (Or.inl rfl)
            have hgrow := processChildren_grows target (c :: cs) true
              (validIngredients (c :: cs))
              (recordAndClassify target el true (validIngredients (c :: cs))
                (addTargetBackward target el (addBaseForward el s)))
            constructor
            · intro e he
              rw [hel] at he
              injection he with he
              subst he
              exact hgrow.2.1 hrec.1
            · intro y hy
              simp only [RNode.recipes] at hy
              exact hgrow.2.1 (hrec.2 y hy)
      · rw [if_neg htg]
        match rs with
        | [] => simp
        | c :: cs =>
          by_cases hq : findPathNodesList target (c :: cs) = []
          · simp [hq]
          · rw [if_neg hq]
            obtain ⟨c0, hc0, hc0ne⟩ := findPathNodesList_ne target (c :: cs) hq
            obtain ⟨e0, he0⟩ := Option.isSome_iff_exists.mp
              (findPathNodes_ne_valid target c0 hc0ne)
            have hing : validIngredients (c :: cs) ≠ [] :=
              List.ne_nil_of_mem (validIngredients_mem _ c0 e0 hc0 he0)
            rw [processNode_eq_rec target oe el (c :: cs) true s helv (List.cons_ne_nil c cs) hing]
            have hrec := recordAndClassify_backward target el true
              (validIngredients (c :: cs))
              (addTargetBackward target el (addBaseForward el s)) (Or.inl rfl)
            have hgrow := processChildren_grows target (c :: cs) true
              (validIngredients (c :: cs))
              (recordAndClassify target el true (validIngredients (c :: cs))
                (addTargetBackward target el (addBaseForward el s)))
            intro m hm
            rcases List.mem_cons.mp hm with rfl | hmq
            · constructor
              · intro e he
                rw [hel] at he
                injection he with he
                subst he
                exact hgrow.2.1 hrec.1
              · intro y hy
                simp only [RNode.recipes] at hy
                exact hgrow.2.1 (hrec.2 y hy)
            · exact pathNodesList_backward target (c :: cs)
                (validIngredients (c :: cs)) _
                (fun c' hc' e he => validIngredients_mem _ c' e hc' he) m hmq

/-- List version of `pathNodes_backward`: processing a child list with
the flag set puts every occurrence of the first-match path (and its
ingredients) into the backward set, provided every valid child element is
among the recorded ingredients. -/
theorem pathNodesList_backward (target : String) (l : List RNode)
    (ing : List String) (s : CState)
    (hing : ∀ c ∈ l, ∀ e, elOf c = some e → e ∈ ing) :
    ∀ m ∈ findPathNodesList target l,
      (∀ e, elOf m = some e →
        e ∈ (processChildren target l true ing s).backward) ∧
      ∀ y ∈ validIngredients m.recipes,
        y ∈ (processChildren target l true ing s).backward := by
  match l with
  | [] => simp [findPathNodesList]
  | c :: cs =>
    simp only [findPathNodesList, processChildren]
    by_cases hq : findPathNodes target c = []
    · rw [if_pos hq]
      exact fun m hm => pathNodesList_backward target cs ing _
        (fun c' hc' => hing c' (List.mem_cons_of_mem _ hc')) m hm
    · rw [if_neg hq]
      obtain ⟨e0, he0⟩ := Option.isSome_iff_exists.mp
        (findPathNodes_ne_valid target c hq)
      have hcf : (true &&
          (match elOf c with
           | some e => decide (e ∈ ing)
           | none => false) &&
          decide (findPathToTarget target c [] ≠ [])) = true := by
        rw [he0]
        simp [hing c (List.mem_cons_self _ _) e0 he0,
          (findPathToTarget_ne_iff target c).mpr hq]
      rw [hcf]
      intro m hm
      have hnode := pathNodes_backward target c s m hm
      have hgrow := processChildren_grows target cs true ing
        (processNode target c true s)
      exact ⟨fun e he => hgrow.2.1 (hnode.1 e he),
        fun y hy => hgrow.2.1 (hnode.2 y hy)⟩

end

/-- The base-element step does not touch the connections. -/
theorem addBaseForward_conn (el : String) (s : CState) :
    (addBaseForward el s).connections = s.connections := by
  unfold addBaseForward
  split <;> rfl

/-- The target step does not touch the connections. -/
theorem addTargetBackward_conn (target el : String) (s : CState) :
    (addTargetBackward target el s).connections = s.connections := by
  unfold addTargetBackward
  split <;> rfl

/-- The leaf branch does not touch the connections. -/
theorem classifyLeaf_conn (target el : String) (s : CState) :
    (classifyLeaf target el s).connections = s.connections := by
  unfold classifyLeaf
  split
  · rfl
  · split <;> rfl

/-- `recordAndClassify` writes exactly one connection entry. -/
theorem recordAndClassify_conn (target el : String) (flag : Bool)
    (ing : List String) (s : CState) :
    (recordAndClassify target el flag ing s).connections =
      setConn s.connections el ing := by
  unfold recordAndClassify
  split <;> rfl

/-- Processing an appended child list processes the two parts in
sequence. -/
theorem processChildren_append (target : String) (l1 l2 : List RNode)
    (flag : Bool) (ing : List String) (s : CState) :
    processChildren target (l1 ++ l2) flag ing s =
      processChildren target l2 flag ing (processChildren target l1 flag ing s) := by
  induction l1 generalizing s with
  | nil => rfl
  | cons c cs ih =>
    simp only [List.cons_append, processChildren]
    exact ih _

/-- A well-formed node has a truthy element and well-formed children. -/
theorem validTree_parts (oe : Option String) (rs : List RNode)
    (h : validTree (RNode.mk oe rs) = true) :
    (elVal oe).isSome ∧ validList rs = true := by
  rw [validTree, Bool.and_eq_true] at h
  exact h

/-- Members of a well-formed list are well-formed trees. -/
theorem validList_mem (l : List RNode) (c : RNode) (hc : c ∈ l)
    (h : validList l = true) : validTree c = true := by
  induction l with
  | nil => cases hc
  | cons d ds ih =>
    rw [validList, Bool.and_eq_true] at h
    rcases List.mem_cons.mp hc with rfl | hc'
    · exact h.1
    · exact ih hc' h.2

/-- A well-formed non-empty child list has valid ingredients. -/
theorem validIngredients_ne (l : List RNode) (hl : l ≠ [])
    (h : validList l = true) : validIngredients l ≠ [] := by
  match l, hl with
  | c :: cs, _ =>
    have hc := validList_mem (c :: cs) c (List.mem_cons_self _ _) h
    obtain ⟨oe, rs⟩ := c
    obtain ⟨hsome, _⟩ := validTree_parts oe rs hc
    obtain ⟨e, he⟩ := Option.isSome_iff_exists.mp hsome
    refine List.ne_nil_of_mem (validIngredients_mem _ (RNode.mk oe rs) e
      (List.mem_cons_self _ _) ?_)
    simp [elOf, RNode.element, he]

/-- Every non-leaf occurrence of a well-formed tree, under any flag, ends
with a connection entry for its element and with its element classified
into the forward or the backward set. -/
theorem occ_processed (target : String) (m n : RNode) (hocc : OccursR m n)
    (e : String) (hel : elOf m = some e) (hne : m.recipes ≠ []) :
    validTree n = true → ∀ flag s,
      (connLookup (processNode target n flag s).connections e).isSome ∧
      (e ∈ (processNode target n flag s).forward ∨
        e ∈ (processNode target n flag s).backward) := by
  induction hocc with
  | refl =>
    intro hval flag s
    obtain ⟨oe, rs⟩ := m
    have helv : elVal oe = some e := by
      simpa [elOf, RNode.element] using hel
    have hrs : rs ≠ [] := by simpa [RNode.recipes] using hne
    have hing : validIngredients rs ≠ [] :=
      validIngredients_ne rs hrs (validTree_parts oe rs hval).2
    rw [processNode_eq_rec target oe e rs flag s helv hrs hing]
    have hgrow := processChildren_grows target rs flag (validIngredients rs)
      (recordAndClassify target e flag (validIngredients rs)
        (addTargetBackward target e (addBaseForward e s)))
    constructor
    · refine hgrow.2.2 e ?_
      rw [recordAndClassify_conn, addTargetBackward_conn, addBaseForward_conn,
        connLookup_setConn_self]
      rfl
    · cases flag with
      | true =>
        exact Or.inr (hgrow.2.1 ((recordAndClassify_backward target e true
          (validIngredients rs) _ (Or.inl rfl)).1)
        )
      | false =>
        by_cases htg : e = target
        · exact Or.inr (hgrow.2.1 ((recordAndClassify_backward target e false
            (validIngredients rs) _ (Or.inr htg)).1))
        · exact Or.inl (hgrow.1 ((recordAndClassify_forward target e
            (validIngredients rs) _ htg).1))
  | @child c oe rs hc hsub ih =>
    intro hval flag s
    obtain ⟨hsome, hlist⟩ := validTree_parts oe rs hval
    obtain ⟨el, helv⟩ := Option.isSome_iff_exists.mp hsome
    have hrs : rs ≠ [] := List.ne_nil_of_mem hc
    have hing : validIngredients rs ≠ [] := validIngredients_ne rs hrs hlist
    rw [processNode_eq_rec target oe el rs flag s helv hrs hing]
    obtain ⟨l1, l2, rfl⟩ := List.append_of_mem hc
    rw [processChildren_append, processChildren]
    have hvc := validList_mem (l1 ++ c :: l2) c
      (List.mem_append.mpr (Or.inr (List.mem_cons_self _ _))) hlist
    have hstep := ih hvc
      (flag &&
        (match elOf c with
         | some e2 => decide (e2 ∈ validIngredients (l1 ++ c :: l2))
         | none => false) &&
        decide (findPathToTarget target c [] ≠ []))
      (processChildren target l1 flag (validIngredients (l1 ++ c :: l2))
        (recordAndClassify target el flag (validIngredients (l1 ++ c :: l2))
          (addTargetBackward target el (addBaseForward el s))))
    have hgrow := processChildren_grows target l2 flag
      (validIngredients (l1 ++ c :: l2))
      (processNode target c
        ((flag &&
          match elOf c with
          | some e2 => decide (e2 ∈ validIngredients (l1 ++ c :: l2))
          | none => false) &&
          decide (findPathToTarget target c [] ≠ []))
        (processChildren target l1 flag (validIngredients (l1 ++ c :: l2))
          (recordAndClassify target el flag (validIngredients (l1 ++ c :: l2))
            (addTargetBackward target el (addBaseForward el s)))))
    refine ⟨hgrow.2.2 e hstep.1, ?_⟩
    rcases hstep.2 with h | h
    · exact Or.inl (hgrow.1 h)
    · exact Or.inr (hgrow.2.1 h)

mutual

/-- Every connection entry after processing a node comes from the
incoming state or from a valid non-leaf occurrence of the node, carrying
that occurrence's valid ingredient elements. -/
theorem conn_src_node (target : String) (n : RNode) (flag : Bool) (s : CState)
    (k : String) (l : List String)
    (h : connLookup (processNode target n flag s).connections k = some l) :
    connLookup s.connections k = some l ∨
      ∃ m, OccursR m n ∧ elOf m = some k ∧ m.recipes ≠ [] ∧
        l = validIngredients m.recipes := by
  match n with
  | RNode.mk oe rs =>
    match helv : elVal oe with
    | none =>
      rw [processNode_eq_none target oe rs flag s helv] at h
      exact Or.inl h
    | some el =>
      match rs with
      | [] =>
        rw [processNode_eq_leaf target oe el flag s helv, classifyLeaf_conn,
          addTargetBackward_conn, addBaseForward_conn] at h
        exact Or.inl h
      | c :: cs =>
        by_cases hing : validIngredients (c :: cs) = []
        · rw [processNode_eq_noing target oe el (c :: cs) flag s helv
            (List.cons_ne_nil c cs) hing, addTargetBackward_conn,
            addBaseForward_conn] at h
          exact Or.inl h
        · rw [processNode_eq_rec target oe el (c :: cs) flag s helv
            (List.cons_ne_nil c cs) hing] at h
          rcases conn_src_list target (c :: cs) flag (validIngredients (c :: cs))
            _ k l h with h' | ⟨m, ⟨cm, hcm, hocc⟩, hmel, hmne, hml⟩
          · rw [recordAndClassify_conn, addTargetBackward_conn,
              addBaseForward_conn] at h'
            by_cases hk : el = k
            · subst hk
              rw [connLookup_setConn_self] at h'
              injection h' with h'
              refine Or.inr ⟨RNode.mk oe (c :: cs), OccursR.refl _, ?_,
                by simp [RNode.recipes], h'.symm⟩
              simp [elOf, RNode.element, helv]
            · rw [connLookup_setConn_other _ _ _ _ hk] at h'
              exact Or.inl h'
          · exact Or.inr ⟨m, OccursR.child hcm hocc, hmel, hmne, hml⟩

/-- List version of `conn_src_node`. -/
theorem conn_src_list (target : String) (l' : List RNode) (flag : Bool)
    (ing : List String) (s : CState) (k : String) (l : List String)
    (h : connLookup (processChildren target l' flag ing s).connections k = some l) :
    connLookup s.connections k = some l ∨
      ∃ m, (∃ c ∈ l', OccursR m c) ∧ elOf m = some k ∧ m.recipes ≠ [] ∧
        l = validIngredients m.recipes := by
  match l' with
  | [] => exact Or.inl h
  | c :: cs =>
    rw [processChildren] at h
    rcases conn_src_list target cs flag ing _ k l h with h' | ⟨m, ⟨d, hd, hocc⟩, h1, h2, h3⟩
    · rcases conn_src_node target c _ s k l h' with h'' | ⟨m, hocc, h1, h2, h3⟩
      · exact Or.inl h''
      · exact Or.inr ⟨m, ⟨c, List.mem_cons_self _ _, hocc⟩, h1, h2, h3⟩
    · exact Or.inr ⟨m, ⟨d, List.mem_cons_of_mem _ hd, hocc⟩, h1, h2, h3⟩

end

mutual

/-- Every occurrence on a first-match path has a truthy element field. -/
theorem findPathNodes_valid (target : String) (n : RNode) :
    ∀ m ∈ findPathNodes target n, (elOf m).isSome := by
  match n with
  | RNode.mk oe rs =>
    simp only [findPathNodes]
    match helv : elVal oe with
    | none => simp
    | some el =>
      simp only
      by_cases htg : el = target
      · rw [if_pos htg]
        intro m hm
        rw [List.mem_singleton] at hm
        subst hm
        simp [elOf, RNode.element, helv]
      · rw [if_neg htg]
        match rs with
        | [] => simp
        | c :: cs =>
          by_cases hq : findPathNodesList target (c :: cs) = []
          · simp [hq]
          · rw [if_neg hq]
            intro m hm
            rcases List.mem_cons.mp hm with rfl | hmq
            · simp [elOf, RNode.element, helv]
            · exact findPathNodesList_valid target (c :: cs) m hmq

/-- List version of `findPathNodes_valid`. -/
theorem findPathNodesList_valid (target : String) (l : List RNode) :
    ∀ m ∈ findPathNodesList target l, (elOf m).isSome := by
  match l with
  | [] => simp [findPathNodesList]
  | c :: cs =>
    simp only [findPathNodesList]
    by_cases hq : findPathNodes target c = []
    · rw [if_pos hq]
      exact findPathNodesList_valid target cs
    · rw [if_neg hq]
      exact findPathNodes_valid target c

end

/-- C3, counterexample: in the implicit tree
`R = [P, Q]`, `P = [G]`, `Q = [S]`, `S = [G]` with target `G`, the
first-match path is `R, P, G` and `S` is neither on it nor a direct
ingredient of any of its nodes, yet `S` is classified backward and not
forward, refuting that every off-path node lands in the forward set. -/
theorem implicit_offpath_backward :
    findPathToTarget "G"
        (.mk (some "R")
          [.mk (some "P") [.mk (some "G") []],
           .mk (some "Q") [.mk (some "S") [.mk (some "G") []]]]) [] =
      ["R", "P", "G"] ∧
    (∀ m ∈ findPathNodes "G"
        (.mk (some "R")
          [.mk (some "P") [.mk (some "G") []],
           .mk (some "Q") [.mk (some "S") [.mk (some "G") []]]]),
      "S" ∉ validIngredients m.recipes) ∧
    "S" ∈ (processRecipeData "G" (.implicitMode
        (.mk (some "R")
          [.mk (some "P") [.mk (some "G") []],
           .mk (some "Q") [.mk (some "S") [.mk (some "G") []]]]))).backward ∧
    "S" ∉ (processRecipeData "G" (.implicitMode
        (.mk (some "R")
          [.mk (some "P") [.mk (some "G") []],
           .mk (some "Q") [.mk (some "S") [.mk (some "G") []]]]))).forward := by
  decide

/-- C3, amended: in implicit mode on a well-formed tree, every element on
the depth-first first-match root-to-target path is classified backward,
together with the valid direct ingredients of every node occurrence on
that path; base elements are always forward and the target always
backward; every non-leaf occurrence gets a connection entry and is
classified into forward or backward (not necessarily forward when off the
path); and every connection entry carries the ingredient elements, in
order, of some non-leaf occurrence of its key. -/
theorem implicit_classification_amended (target : String) (t : RNode)
    (hval : validTree t = true) :
    (∀ e ∈ findPathToTarget target t [],
      e ∈ (processRecipeData target (.implicitMode t)).backward) ∧
    (∀ m ∈ findPathNodes target t, ∀ y ∈ validIngredients m.recipes,
      y ∈ (processRecipeData target (.implicitMode t)).backward) ∧
    (∀ b ∈ baseElements,
      b ∈ (processRecipeData target (.implicitMode t)).forward) ∧
    target ∈ (processRecipeData target (.implicitMode t)).backward ∧
    (∀ m e, OccursR m t → elOf m = some e → m.recipes ≠ [] →
      (connLookup (processRecipeData target
        (.implicitMode t)).connections e).isSome ∧
      (e ∈ (processRecipeData target (.implicitMode t)).forward ∨
        e ∈ (processRecipeData target (.implicitMode t)).backward)) ∧
    (∀ k l, connLookup (processRecipeData target
        (.implicitMode t)).connections k = some l →
      ∃ m, OccursR m t ∧ elOf m = some k ∧ m.recipes ≠ [] ∧
        l = validIngredients m.recipes) := by
  have helt : ∃ el0, elOf t = some el0 := by
    obtain ⟨oe, rs⟩ := t
    obtain ⟨hsome, _⟩ := validTree_parts oe rs hval
    exact Option.isSome_iff_exists.mp (by simpa [elOf, RNode.element] using hsome)
  obtain ⟨el0, helt⟩ := helt
  have hbuild : buildBidirectionalFromRecipeTree target t
      ⟨baseElements, [target], []⟩ =
      processNode target t (decide (findPathToTarget target t [] ≠ []))
        ⟨baseElements, [target], []⟩ := by
    simp only [buildBidirectionalFromRecipeTree, helt]
  refine ⟨?_, ?_, ?_, ?_, ?_, ?_⟩
  · show ∀ e ∈ findPathToTarget target t [],
      e ∈ (buildBidirectionalFromRecipeTree target t
        ⟨baseElements, [target], []⟩).backward
    by_cases hp : findPathNodes target t = []
    · intro e he
      rw [findPathToTarget_eq_nodes, if_pos hp] at he
      cases he
    · have hflag : (decide (findPathToTarget target t [] ≠ [])) = true := by
        simp [(findPathToTarget_ne_iff target t).mpr hp]
      intro e he
      rw [findPathToTarget_eq_nodes, if_neg hp, List.nil_append] at he
      obtain ⟨m, hm, hme⟩ := List.mem_map.mp he
      obtain ⟨e', he'⟩ := Option.isSome_iff_exists.mp
        (findPathNodes_valid target t m hm)
      have hee : e' = e := by rw [he'] at hme; simpa using hme
      subst hee
      rw [hbuild, hflag]
      exact (pathNodes_backward target t _ m hm).1 e' he'
  · show ∀ m ∈ findPathNodes target t, ∀ y ∈ validIngredients m.recipes,
      y ∈ (buildBidirectionalFromRecipeTree target t
        ⟨baseElements, [target], []⟩).backward
    intro m hm y hy
    have hp : findPathNodes target t ≠ [] := List.ne_nil_of_mem hm
    have hflag : (decide (findPathToTarget target t [] ≠ [])) = true := by
      simp [(findPathToTarget_ne_iff target t).mpr hp]
    rw [hbuild, hflag]
    exact (pathNodes_backward target t _ m hm).2 y hy
  · show ∀ b ∈ baseElements,
      b ∈ (buildBidirectionalFromRecipeTree target t
        ⟨baseElements, [target], []⟩).forward
    intro b hb
    exact (buildBidirectional_grows target t _).1 hb
  · show target ∈ (buildBidirectionalFromRecipeTree target t
      ⟨baseElements, [target], []⟩).backward
    exact (buildBidirectional_grows target t _).2.1 (List.mem_singleton.mpr rfl)
  · intro m e hocc hel hne
    show (connLookup (buildBidirectionalFromRecipeTree target t
        ⟨baseElements, [target], []⟩).connections e).isSome ∧
      (e ∈ (buildBidirectionalFromRecipeTree target t
        ⟨baseElements, [target], []⟩).forward ∨
        e ∈ (buildBidirectionalFromRecipeTree target t
          ⟨baseElements, [target], []⟩).backward)
    rw [hbuild]
    exact occ_processed target m t hocc e hel hne hval _ _
  · intro k l hk
    have hk' : connLookup (buildBidirectionalFromRecipeTree target t
        ⟨baseElements, [target], []⟩).connections k = some l := hk
    rw [hbuild] at hk'
    rcases conn_src_node target t _ _ k l hk' with h | h
    · cases h
    · exact h

/-- C3, witness: the amended theorem applied to the implicit
`Mud = Water + Earth` scenario. -/
theorem implicit_classification_amended_witness :
    "Mud" ∈ (processRecipeData "Mud" (.implicitMode
      (.mk (some "Mud")
        [.mk (some "Water") [], .mk (some "Earth") []]))).backward :=
  (implicit_classification_amended "Mud"
    (.mk (some "Mud") [.mk (some "Water") [], .mk (some "Earth") []])
    (by decide)).2.2.2.1

/-- Looking up the key just written by `setTracker` returns the new
value. -/
theorem lookupTracker_setTracker_self
    (m : List ((String × Nat) × (DFSNode × List String)))
    (k : String × Nat) (v : DFSNode × List String) :
    lookupTracker (setTracker m k v) k = some v := by
  induction m with
  | nil => simp [setTracker, lookupTracker]
  | cons e rest ih =>
    obtain ⟨k', v'⟩ := e
    by_cases h : k' = k
    · simp [setTracker, h, lookupTracker]
    · simp [setTracker, h, lookupTracker, ih]

/-- `setTracker` never removes a key. -/
theorem lookupTracker_setTracker_isSome
    (m : List ((String × Nat) × (DFSNode × List String)))
    (k : String × Nat) (v : DFSNode × List String) (k' : String × Nat)
    (h : (lookupTracker m k').isSome) :
    (lookupTracker (setTracker m k v) k').isSome := by
  induction m with
  | nil => simp [lookupTracker] at h
  | cons e rest ih =>
    obtain ⟨k0, v0⟩ := e
    rw [lookupTracker] at h
    simp only [setTracker]
    by_cases h0 : k0 = k
    · rw [if_pos h0, lookupTracker]
      by_cases hk : k = k'
      · rw [if_pos hk]; rfl
      · rw [if_neg hk]
        rw [if_neg (fun hh => hk (h0.symm.trans hh))] at h
        exact h
    · rw [if_neg h0, lookupTracker]
      by_cases hk : k0 = k'
      · rw [if_pos hk]; rfl
      · rw [if_neg hk]
        rw [if_neg hk] at h
        exact ih h

/-- Appending tracker entries preserves present keys. -/
theorem lookupTracker_append_isSome
    (m l : List ((String × Nat) × (DFSNode × List String)))
    (k : String × Nat) (h : (lookupTracker m k).isSome) :
    (lookupTracker (m ++ l) k).isSome := by
  induction m with
  | nil => simp [lookupTracker] at h
  | cons e rest ih =>
    obtain ⟨k0, v0⟩ := e
    rw [lookupTracker] at h
    by_cases hk : k0 = k
    · simp [lookupTracker, hk]
    · rw [if_neg hk] at h
      simp only [List.cons_append, lookupTracker, if_neg hk]
      exact ih h

/-- A fresh key appended to the tracker becomes visible. -/
theorem lookupTracker_append_fresh
    (m : List ((String × Nat) × (DFSNode × List String)))
    (k : String × Nat) (v : DFSNode × List String)
    (h : lookupTracker m k = none) :
    lookupTracker (m ++ [(k, v)]) k = some v := by
  induction m with
  | nil => simp [lookupTracker]
  | cons e rest ih =>
    obtain ⟨k0, v0⟩ := e
    rw [lookupTracker] at h
    by_cases hk : k0 = k
    · rw [if_pos hk] at h; cases h
    · rw [if_neg hk] at h
      simp only [List.cons_append, lookupTracker, if_neg hk]
      exact ih h

/-- Invariant of the tree-to-trace conversion: emitted nodes have
pairwise-distinct `(element, depth)` keys, and every emitted key is
tracked. -/
def TraceInv (st : TraverseState) : Prop :=
  (st.nodes.map DFSNode.pairKey).Nodup ∧
  ∀ n ∈ st.nodes, (lookupTracker st.tracker n.pairKey).isSome

mutual

/-- `traverseDFS` preserves the trace invariant. -/
theorem traverseDFS_inv (t : RNode) (d : Nat) (p : Option String)
    (vis : List (String × Nat × Option String)) (st : TraverseState)
    (hinv : TraceInv st) : TraceInv (traverseDFS t d p vis st) := by
  match t with
  | RNode.mk oe rs =>
    simp only [traverseDFS]
    match helv : elVal oe with
    | none => exact hinv
    | some el =>
      simp only
      by_cases hv : (el, d, p) ∈ vis
      · rw [if_pos hv]
        exact hinv
      · rw [if_neg hv]
        match htr : lookupTracker st.tracker (el, d) with
        | some nps =>
          refine ⟨hinv.1, fun n hn => ?_⟩
          exact lookupTracker_setTracker_isSome _ _ _ _ (hinv.2 n hn)
        | none =>
          refine traverseChildren_inv rs (d + 1) el _ _ ⟨?_, ?_⟩
          · simp only [List.map_append, List.map_cons, List.map_nil]
            refine List.Nodup.append hinv.1 (by simp) ?_
            intro k hk hk'
            simp only [List.mem_singleton] at hk'
            obtain ⟨n, hn, hnk⟩ := List.mem_map.mp hk
            have := hinv.2 n hn
            rw [hnk, hk'] at this
            show False
            rw [show DFSNode.pairKey ⟨el, d, p, st.nextId⟩ = (el, d) from rfl] at this
            rw [htr] at this
            cases this
          · intro n hn
            rcases List.mem_append.mp hn with hn | hn
            · exact lookupTracker_append_isSome _ _ _ (hinv.2 n hn)
            · rw [List.mem_singleton] at hn
              subst hn
              rw [show DFSNode.pairKey ⟨el, d, p, st.nextId⟩ = (el, d) from rfl,
                lookupTracker_append_fresh _ _ _ htr]
              rfl

/-- `traverseChildren` preserves the trace invariant. -/
theorem traverseChildren_inv (l : List RNode) (d : Nat) (pel : String)
    (vis : List (String × Nat × Option String)) (st : TraverseState)
    (hinv : TraceInv st) : TraceInv (traverseChildren l d pel vis st) := by
  match l with
  | [] => exact hinv
  | c :: cs =>
    simp only [traverseChildren]
    exact traverseChildren_inv cs d pel vis _ (traverseDFS_inv c d (some pel) vis st hinv)

end

/-- C6: the trace builder (1) never emits two DFSNodes sharing an
`(element, depth)` key within one tree-to-trace conversion — in
particular no two nodes agree on `(element, depth, parent)` — (2)
suppresses an incoming event whose `(element, depth, parent)` triple
matches an already-emitted node, and (3) merges a node whose
`(element, depth)` key is already tracked into the existing node's parent
set, emitting nothing. -/
theorem dfs_trace_dedup :
    (∀ t : RNode, ((buildTrace t).nodes.map DFSNode.pairKey).Nodup) ∧
    (∀ (prev : List DFSNode) (e : String) (d : Nat) (p : Option String)
        (nid : Nat),
      (∃ n ∈ prev, n.element = e ∧ n.depth = d ∧ n.parent = p) →
      processDFSNodes prev e d p nid = prev) ∧
    (∀ (st : TraverseState) (oe : Option String) (el : String)
        (rs : List RNode) (d : Nat) (p : Option String)
        (vis : List (String × Nat × Option String))
        (n0 : DFSNode) (ps : List String),
      elVal oe = some el → (el, d, p) ∉ vis →
      lookupTracker st.tracker (el, d) = some (n0, ps) →
      traverseDFS (RNode.mk oe rs) d p vis st =
        ⟨setTracker st.tracker (el, d)
            (n0, (match p with | some q => sadd ps q | none => ps)),
          st.nodes, st.nextId⟩) := by
  refine ⟨?_, ?_, ?_⟩
  · intro t
    exact (traverseDFS_inv t 0 none [] ⟨[], [], 0⟩ ⟨by simp, by simp⟩).1
  · intro prev e d p nid ⟨n, hn, h1, h2, h3⟩
    unfold processDFSNodes
    rw [if_pos]
    rw [List.any_eq_true]
    exact ⟨n, hn, by simp [h1, h2, h3]⟩
  · intro st oe el rs d p vis n0 ps helv hvis htr
    simp only [traverseDFS, helv]
    rw [if_neg hvis, htr]

/-- C6, witness: an event matching an emitted node's triple is
suppressed, and a same-key occurrence is merged, on concrete inputs. -/
theorem dfs_trace_dedup_witness :
    processDFSNodes [⟨"Brick", 2, some "Wall", 7⟩] "Brick" 2 (some "Wall") 9 =
      [⟨"Brick", 2, some "Wall", 7⟩] :=
  dfs_trace_dedup.2.1 [⟨"Brick", 2, some "Wall", 7⟩] "Brick" 2 (some "Wall") 9
    ⟨⟨"Brick", 2, some "Wall", 7⟩, List.mem_singleton.mpr rfl, rfl, rfl, rfl⟩

/-- C4, witness: `Water` is forward and `Mud` backward after classifying
the implicit `Mud = Water + Earth` tree. -/
theorem base_forward_target_backward_witness :
    "Water" ∈ (processRecipeData "Mud" (.implicitMode
      (.mk (some "Mud") [.mk (some "Water") [], .mk (some "Earth") []]))).forward ∧
    "Mud" ∈ (processRecipeData "Mud" (.implicitMode
      (.mk (some "Mud") [.mk (some "Water") [], .mk (some "Earth") []]))).backward :=
  ⟨(base_forward_target_backward "Mud" _).1 "Water" (by decide),
   (base_forward_target_backward "Mud" _).2⟩

mutual

/-- Everything `flowTraverse` produces except the x coordinates — the
counter, ids, y coordinates, labels, and edges — is independent of the
random stream. -/
theorem flowTraverse_stripX (r1 r2 : Nat → ℚ) (node : RecipeNode)
    (pid : Option String) (k : Nat) (ns1 ns2 : List FlowNode)
    (es : List FlowEdge)
    (hns : ns1.map FlowNode.stripX = ns2.map FlowNode.stripX) :
    (flowTraverse r1 node pid (k, ns1, es)).1 =
      (flowTraverse r2 node pid (k, ns2, es)).1 ∧
    (flowTraverse r1 node pid (k, ns1, es)).2.1.map FlowNode.stripX =
      (flowTraverse r2 node pid (k, ns2, es)).2.1.map FlowNode.stripX ∧
    (flowTraverse r1 node pid (k, ns1, es)).2.2 =
      (flowTraverse r2 node pid (k, ns2, es)).2.2 := by
  match node with
  | RecipeNode.mk el rs =>
    simp only [flowTraverse]
    refine flowTraverseList_stripX r1 r2 rs (toString k) (k + 1) _ _ _ ?_
    simp only [List.map_append, hns]
    rfl

/-- List version of `flowTraverse_stripX`. -/
theorem flowTraverseList_stripX (r1 r2 : Nat → ℚ) (l : List RecipeNode)
    (pid : String) (k : Nat) (ns1 ns2 : List FlowNode) (es : List FlowEdge)
    (hns : ns1.map FlowNode.stripX = ns2.map FlowNode.stripX) :
    (flowTraverseList r1 l pid (k, ns1, es)).1 =
      (flowTraverseList r2 l pid (k, ns2, es)).1 ∧
    (flowTraverseList r1 l pid (k, ns1, es)).2.1.map FlowNode.stripX =
      (flowTraverseList r2 l pid (k, ns2, es)).2.1.map FlowNode.stripX ∧
    (flowTraverseList r1 l pid (k, ns1, es)).2.2 =
      (flowTraverseList r2 l pid (k, ns2, es)).2.2 := by
  match l with
  | [] => exact ⟨rfl, hns, rfl⟩
  | c :: cs =>
    simp only [flowTraverseList]
    have h1 := flowTraverse_stripX r1 r2 c (some pid) k ns1 ns2 es hns
    have hk1 := h1.1
    have he1 := h1.2.2
    rw [show flowTraverse r1 c (some pid) (k, ns1, es) =
        ((flowTraverse r1 c (some pid) (k, ns1, es)).1,
          (flowTraverse r1 c (some pid) (k, ns1, es)).2.1,
          (flowTraverse r1 c (some pid) (k, ns1, es)).2.2) from rfl,
      show flowTraverse r2 c (some pid) (k, ns2, es) =
        ((flowTraverse r2 c (some pid) (k, ns2, es)).1,
          (flowTraverse r2 c (some pid) (k, ns2, es)).2.1,
          (flowTraverse r2 c (some pid) (k, ns2, es)).2.2) from rfl,
      hk1, he1]
    exact flowTraverseList_stripX r1 r2 cs pid _ _ _ _ h1.2.1

end

mutual

/-- `flowTraverse` appends fresh nodes whose x coordinates are the random
draws at the successive counter values, scaled by 400. -/
theorem flowTraverse_x (r : Nat → ℚ) (node : RecipeNode) (pid : Option String)
    (k : Nat) (ns : List FlowNode) (es : List FlowEdge) :
    ∃ new, (flowTraverse r node pid (k, ns, es)).2.1 = ns ++ new ∧
      (flowTraverse r node pid (k, ns, es)).1 = k + new.length ∧
      ∀ j, (hj : j < new.length) → new[j].x = r (k + j) * 400 := by
  match node with
  | RecipeNode.mk el rs =>
    simp only [flowTraverse]
    obtain ⟨new2, hnodes, hcount, hx⟩ := flowTraverseList_x r rs (toString k)
      (k + 1) (ns ++ [⟨toString k, r k * 400, ((k + 1 : Nat) : ℚ) * 80, el⟩]) _
    refine ⟨⟨toString k, r k * 400, ((k + 1 : Nat) : ℚ) * 80, el⟩ :: new2,
      by rw [hnodes, List.append_assoc, List.singleton_append], by
        rw [hcount]; simp only [List.length_cons]; omega, ?_⟩
    intro j hj
    match j with
    | 0 => simp
    | j' + 1 =>
      rw [List.length_cons] at hj
      have := hx j' (by omega)
      rw [List.getElem_cons_succ, this,
        show k + 1 + j' = k + (j' + 1) from by omega]

/-- List version of `flowTraverse_x`. -/
theorem flowTraverseList_x (r : Nat → ℚ) (l : List RecipeNode) (pid : String)
    (k : Nat) (ns : List FlowNode) (es : List FlowEdge) :
    ∃ new, (flowTraverseList r l pid (k, ns, es)).2.1 = ns ++ new ∧
      (flowTraverseList r l pid (k, ns, es)).1 = k + new.length ∧
      ∀ j, (hj : j < new.length) → new[j].x = r (k + j) * 400 := by
  match l with
  | [] => exact ⟨[], by simp [flowTraverseList], by simp [flowTraverseList], by simp⟩
  | c :: cs =>
    simp only [flowTraverseList]
    obtain ⟨new1, hn1, hc1, hx1⟩ := flowTraverse_x r c (some pid) k ns es
    rw [show flowTraverse r c (some pid) (k, ns, es) =
        ((flowTraverse r c (some pid) (k, ns, es)).1,
          (flowTraverse r c (some pid) (k, ns, es)).2.1,
          (flowTraverse r c (some pid) (k, ns, es)).2.2) from rfl,
      hn1, hc1]
    obtain ⟨new2, hn2, hc2, hx2⟩ := flowTraverseList_x r cs pid (k + new1.length)
      (ns ++ new1) _
    refine ⟨new1 ++ new2, by rw [hn2, List.append_assoc],
      by rw [hc2]; simp only [List.length_append]; omega, ?_⟩
    intro j hj
    rw [List.length_append] at hj
    by_cases hlt : j < new1.length
    · rw [List.getElem_append_left hlt]
      exact hx1 j hlt
    · rw [List.getElem_append_right (by omega)]
      rw [hx2 (j - new1.length) (by omega),
        show k + new1.length + (j - new1.length) = k + j from by omega]

end

/-- C7, counterexample: the recipe-tree layout depends on the random
stream: two invocations of `buildFlowData` on the same tree whose random
draws differ produce different node positions, so the pair of layout
functions is not deterministic as claimed. -/
theorem buildFlowData_not_deterministic :
    buildFlowData (fun _ => 0) (.mk "Mud" [.mk "Water" [], .mk "Earth" []]) ≠
      buildFlowData (fun _ => 1) (.mk "Mud" [.mk "Water" [], .mk "Earth" []]) := by
  intro h
  have h0 := congrArg (fun p => p.1.map FlowNode.x) h
  simp only [buildFlowData, flowTraverse, flowTraverseList, List.map_append,
    List.map_cons, List.map_nil, List.nil_append] at h0
  norm_num at h0

/-- C7, amended: the DFS layout is a pure function of the node sequence,
connection list, and dimensions, with no random input in its embedding,
but `buildFlowData` is randomized in exactly
its x coordinates: ids, y coordinates, labels, and edges are identical
across random streams, while the node at traversal position `i` gets
`x = rand i * 400` for the fresh draw `rand i`, so repeated invocations
generally differ. -/
theorem buildFlowData_rand_profile :
    (∀ (r1 r2 : Nat → ℚ) (root : RecipeNode),
      (buildFlowData r1 root).1.map FlowNode.stripX =
        (buildFlowData r2 root).1.map FlowNode.stripX ∧
      (buildFlowData r1 root).2 = (buildFlowData r2 root).2) ∧
    (∀ (r : Nat → ℚ) (root : RecipeNode) (i : Nat),
      i < (buildFlowData r root).1.length →
      ∃ hi : i < (buildFlowData r root).1.length,
        ((buildFlowData r root).1[i]).x = r i * 400) := by
  constructor
  · intro r1 r2 root
    have h := flowTraverse_stripX r1 r2 root none 0 [] [] [] rfl
    exact ⟨h.2.1, h.2.2⟩
  · intro r root i hi
    obtain ⟨new, hn, _, hx⟩ := flowTraverse_x r root none 0 [] []
    refine ⟨hi, ?_⟩
    have hlen : (buildFlowData r root).1.length = new.length := by
      show (flowTraverse r root none (0, [], [])).2.1.length = new.length
      rw [hn]
      simp
    have hlist : (buildFlowData r root).1 = new := by
      show (flowTraverse r root none (0, [], [])).2.1 = new
      rw [hn]
      exact List.nil_append new
    have hi2 : i < new.length := hlen ▸ hi
    simp only [hlist]
    rw [hx i hi2]
    simp

/-- C7, witness: the x coordinate of the root node under the constant
stream 3 is 1200. -/
theorem buildFlowData_rand_profile_witness :
    ∃ hi : 0 < (buildFlowData (fun _ => 3)
      (RecipeNode.mk "Mud" [])).1.length,
      ((buildFlowData (fun _ => 3) (RecipeNode.mk "Mud" [])).1[0]).x =
        (fun _ : Nat => (3 : ℚ)) 0 * 400 :=
  buildFlowData_rand_profile.2 (fun _ => 3) (RecipeNode.mk "Mud" []) 0
    (by decide)

/-- C8: for a non-empty node sequence, the DFS layout places each node
vertically at `depth / max maxDepth 1` of the inner height (plus the
40-pixel margin) and horizontally spreads each depth level evenly with
spacing `A / total` across `A = max innerWidth (total * minSpacing)`,
centred on the inner width — the minimum-spacing clamp never binds since
`A / total ≥ 60` — with a lone node at a depth placed at the horizontal
centre. -/
theorem createDFSLayout_coords (ns : List DFSNode) (conns : List (Nat × Nat))
    (w h : ℚ) (i : Nat) (hi : i < ns.length) :
    ∃ hp : i < (createDFSLayout ns conns w h).1.length,
      ((createDFSLayout ns conns w h).1[i]).y =
        ((ns[i].depth : ℚ) /
          ((max ((ns.map DFSNode.depth).foldl max 0) 1 : ℕ) : ℚ)) * (h - 80) + 40 ∧
      ((createDFSLayout ns conns w h).1[i]).x =
        (if (ns.filter fun m => m.depth = ns[i].depth).length = 1 then
          (w - 80) / 2
        else
          (idxOfNode (ns.filter fun m => m.depth = ns[i].depth) ns[i] : ℚ) *
              (max (w - 80)
                  (((ns.filter fun m => m.depth = ns[i].depth).length : ℚ) * 60) /
                ((ns.filter fun m => m.depth = ns[i].depth).length : ℚ)) +
            max (w - 80)
                (((ns.filter fun m => m.depth = ns[i].depth).length : ℚ) * 60) /
              ((ns.filter fun m => m.depth = ns[i].depth).length : ℚ) / 2 -
            max (w - 80)
                (((ns.filter fun m => m.depth = ns[i].depth).length : ℚ) * 60) / 2 +
            (w - 80) / 2) + 40 := by
  have hne : ns ≠ [] := by
    intro hnil
    rw [hnil] at hi
    simp at hi
  have hp : i < (createDFSLayout ns conns w h).1.length := by
    unfold createDFSLayout
    rw [if_neg hne]
    simpa using hi
  refine ⟨hp, ?_⟩
  have hmem : ns[i] ∈ ns.filter fun m => m.depth = ns[i].depth :=
    List.mem_filter.mpr ⟨List.getElem_mem hi, by simp⟩
  have htot : 0 < (ns.filter fun m => m.depth = ns[i].depth).length :=
    List.length_pos.mpr (List.ne_nil_of_mem hmem)
  have htotq : (0 : ℚ) < ((ns.filter fun m => m.depth = ns[i].depth).length : ℚ) := by
    exact_mod_cast htot
  have hspacing :
      max 60 (max (w - 80)
          (((ns.filter fun m => m.depth = ns[i].depth).length : ℚ) * 60) /
        ((ns.filter fun m => m.depth = ns[i].depth).length : ℚ)) =
      max (w - 80)
          (((ns.filter fun m => m.depth = ns[i].depth).length : ℚ) * 60) /
        ((ns.filter fun m => m.depth = ns[i].depth).length : ℚ) := by
    refine max_eq_right ?_
    rw [le_div_iff₀ htotq]
    calc (60 : ℚ) * ((ns.filter fun m => m.depth = ns[i].depth).length : ℚ)
        = ((ns.filter fun m => m.depth = ns[i].depth).length : ℚ) * 60 := by ring
      _ ≤ _ := le_max_right _ _
  constructor
  · show ((createDFSLayout ns conns w h).1[i]).y = _
    unfold createDFSLayout
    simp only [if_neg hne, List.getElem_map]
  · show ((createDFSLayout ns conns w h).1[i]).x = _
    unfold createDFSLayout
    simp only [if_neg hne, List.getElem_map]
    by_cases hone : (ns.filter fun m => m.depth = ns[i].depth).length = 1
    · rw [if_pos hone, if_pos hone]
    · rw [if_neg hone, if_neg hone, hspacing]

/-- C8, witness: in an 800 by 600 container, the second of two depth-1
nodes sits at `x = 580`, `y = 560`. -/
theorem createDFSLayout_coords_witness :
    ∃ hp : 2 < (createDFSLayout
      [⟨"A", 0, none, 0⟩, ⟨"B", 1, some "A", 1⟩, ⟨"C", 1, some "A", 2⟩]
      [(0, 1), (0, 2)] 800 600).1.length,
      ((createDFSLayout
        [⟨"A", 0, none, 0⟩, ⟨"B", 1, some "A", 1⟩, ⟨"C", 1, some "A", 2⟩]
        [(0, 1), (0, 2)] 800 600).1[2]).y = 560 ∧
      ((createDFSLayout
        [⟨"A", 0, none, 0⟩, ⟨"B", 1, some "A", 1⟩, ⟨"C", 1, some "A", 2⟩]
        [(0, 1), (0, 2)] 800 600).1[2]).x = 580 := by
  obtain ⟨hp, hy, hx⟩ := createDFSLayout_coords
    [⟨"A", 0, none, 0⟩, ⟨"B", 1, some "A", 1⟩, ⟨"C", 1, some "A", 2⟩]
    [(0, 1), (0, 2)] 800 600 2 (by norm_num)
  refine ⟨hp, ?_, ?_⟩
  · rw [hy]
    norm_num [List.foldl, List.map]
  · rw [hx]
    norm_num [idxOfNode, List.findIdx, List.findIdx.go, List.filter]
